import Mathlib

/-!
Shallow embedding of the He4 fixed-capacity open-addressed hash table
(`src/he4.c`, newer revision with `insert_cell`, `he4_find` and touch
indices), together with proofs checking the specification's claims.

Modelling conventions:
* keys are byte sequences (`List Nat`); a nullable key pointer is
  `Option (List Nat)`; a nullable entry pointer is `Option Nat`;
* the `hash` and `compare` callbacks are function fields of the table
  structure, exactly as the C struct stores function pointers;
* the key/entry destructor callbacks return nothing, so they are modelled
  by emitting a `DCall` event at each invocation instead of storing the
  function; every mutating operation returns the list of destructor calls
  it makes, in order;
* the touch-index feature is enabled (the default build: `HE4NOTOUCH` is
  not defined);
* `size_t` values are modelled as `Nat`; the only places the C could wrap
  (`--free` at zero, `++max_touch` at `SIZE_MAX`) are never reached in the
  scenarios covered by the claims.
-/

namespace He4

/-- Byte sequence a key pointer points at (`klen` bytes are significant). -/
abbrev Key := List Nat

/-- A possibly-NULL key pointer (`he4_key_t`). -/
abbrev KeyP := Option Key

/-- A possibly-NULL entry pointer (`he4_entry_t`); entries are opaque values. -/
abbrev EntryP := Option Nat

/-- Record of one destructor invocation: `delete_key` or `delete_entry`
applied to the given pointer. -/
inductive DCall where
  | dkey (k : KeyP)
  | dentry (e : EntryP)
  deriving Repr, DecidableEq

/-- One cell of the table (`he4_map_t`): touch index, cached hash, entry,
key pointer and key length. -/
structure he4_map_t where
  touch : Nat
  hash : Nat
  entry : EntryP
  key : KeyP
  klen : Nat
  deriving Repr, DecidableEq

/-- The all-zero cell used for empty cells (`blank_cell`). -/
def blank_cell : he4_map_t :=
  { touch := 0, hash := 0, entry := none, key := none, klen := 0 }

/-- Model of `SIZE_MAX` for a 64-bit `size_t` (initial value of the LRU
tracker in `insert_cell`). -/
def SIZE_MAX : Nat := 2 ^ 64 - 1

/-- Minimum table size (`HE4_MINIMUM_SIZE`, default 64). -/
def HE4_MINIMUM_SIZE : Nat := 64

/-- The hash table (`HE4`): capacity, comparison callback, free-cell count,
hash callback, maximum touch index, and the cell array. -/
structure HE4 where
  capacity : Nat
  compare : KeyP → Nat → KeyP → Nat → Int
  free : Nat
  hash : KeyP → Nat → Nat
  max_touch : Nat
  maps : List he4_map_t

/-- Read `table->maps[index]` (out-of-range reads return the blank cell; the
verified code paths always stay in range). -/
def mapAt (t : HE4) (index : Nat) : he4_map_t := t.maps.getD index blank_cell

/-- Write `table->maps[index] = c`. -/
def setMap (t : HE4) (index : Nat) (c : he4_map_t) : HE4 :=
  { t with maps := t.maps.set index c }

/-- Cell classification `is_empty`: never held a value (`klen == 0`). -/
def is_empty (t : HE4) (index : Nat) : Bool := (mapAt t index).klen == 0

/-- Cell classification `is_deleted`: lazily deleted
(`klen > 0 && key == NULL`). -/
def is_deleted (t : HE4) (index : Nat) : Bool :=
  decide (0 < (mapAt t index).klen) && ((mapAt t index).key == none)

/-- Cell classification `is_open`: can receive a value (`key == NULL`). -/
def is_open (t : HE4) (index : Nat) : Bool := (mapAt t index).key == none

/-- Free the key and/or entry of a cell as requested and blank it
(`empty_cell`); the destructors are only invoked on non-NULL pointers. -/
def empty_cell (t : HE4) (index : Nat) (free_key free_entry : Bool) :
    HE4 × List DCall :=
  let log1 := if free_key && ((mapAt t index).key != none) then
      [DCall.dkey (mapAt t index).key] else []
  let log2 := if free_entry && ((mapAt t index).entry != none) then
      [DCall.dentry (mapAt t index).entry] else []
  (setMap t index blank_cell, log1 ++ log2)

/-- Move the content of a cell to another location (`move_cell`); an occupied
destination is freed first. -/
def move_cell (t : HE4) (src dst : Nat) : HE4 × List DCall :=
  let r := if !is_open t dst then empty_cell t dst true true else (t, [])
  let t2 := setMap r.1 dst (mapAt r.1 src)
  (setMap t2 src blank_cell, r.2)

/-- Default key comparison (`he4_compare`): compare lengths, then the first
`klen1` bytes.  Passing a NULL pointer to the C `memcmp` would be undefined
behaviour; the model lets NULL compare equal only to NULL. -/
def he4_compare (key1 : KeyP) (klen1 : Nat) (key2 : KeyP) (klen2 : Nat) : Int :=
  if klen1 ≠ klen2 then 1
  else
    match key1, key2 with
    | some k1, some k2 => if k1.take klen1 = k2.take klen1 then 0 else 1
    | none, none => 0
    | _, _ => 1

/-- Create a table (`he4_new`).  Returns `none` (NULL) when the requested size
is below `HE4_MINIMUM_SIZE`.  The zeroing allocator is modelled as always
succeeding, so all cells start blank; the destructors are modelled as events
and therefore not stored. -/
def he4_new (entries : Nat) (hash : KeyP → Nat → Nat)
    (compare : KeyP → Nat → KeyP → Nat → Int) : Option HE4 :=
  if entries < HE4_MINIMUM_SIZE then none
  else some { capacity := entries, compare := compare, free := entries,
              hash := hash, max_touch := 0,
              maps := List.replicate entries blank_cell }

/-- Destroy a table (`he4_delete`), returning the destructor calls it makes.
Transcribed faithfully from the source: `table->free` and `table->capacity`
are zeroed first, and only then does the cleanup loop
`for (index = 0; index < table->capacity; ++index) empty_cell(...)` run —
over the now-zero capacity. -/
def he4_delete (table : Option HE4) : List DCall :=
  match table with
  | none => []
  | some t =>
    let t1 : HE4 := { t with free := 0, capacity := 0 }
    let result := (List.range t1.capacity).foldl
      (fun (acc : HE4 × List DCall) index =>
        let r := empty_cell acc.1 index true true
        (r.1, acc.2 ++ r.2))
      (t1, [])
    result.2

/-- Logical size (`he4_size`): `capacity - free`, 0 for a NULL table. -/
def he4_size (table : Option HE4) : Nat :=
  match table with
  | none => 0
  | some t => t.capacity - t.free

/-- Capacity accessor (`he4_capacity`), 0 for a NULL table. -/
def he4_capacity (table : Option HE4) : Nat :=
  match table with
  | none => 0
  | some t => t.capacity

/-- Load factor (`he4_load`) as a rational, 1 for a NULL table. -/
def he4_load (table : Option HE4) : ℚ :=
  match table with
  | none => 1
  | some t => ((t.capacity - t.free : Nat) : ℚ) / (t.capacity : ℚ)

/-- Maximum touch accessor (`he4_max_touch`).  The source dereferences the
table without a NULL check, so the NULL case has no defined result; the model
renders that absent case as `none`, while every non-NULL table yields its
`max_touch` field. -/
def he4_max_touch (table : Option HE4) : Option Nat :=
  match table with
  | none => none
  | some t => some t.max_touch

/-- Code after `insert_cell`'s probe loop: with `overwrite` unset the call
fails without mutation; otherwise the recorded least-recently-used cell is
evicted — both destructors are invoked on its key and entry unconditionally —
and the new key/entry/hash/touch are written there. -/
def insert_cell_post (t : HE4) (key : KeyP) (klen : Nat) (entry : EntryP)
    (overwrite : Bool) (touch_index : Nat) (hash : Nat) (lru_index : Nat) :
    Bool × HE4 × List DCall :=
  if !overwrite then (true, t, [])
  else
    let c := mapAt t lru_index
    (true,
     setMap t lru_index
       { touch := touch_index, hash := hash, entry := entry, key := key,
         klen := klen },
     [DCall.dkey c.key, DCall.dentry c.entry])

/-- Probe loop of `insert_cell`, with `fuel` probes left before the do/while
wraps back to `start`; `lru`/`lru_index` track the smallest touch value seen
(first seen wins ties). -/
def insert_cell_loop (t : HE4) (key : KeyP) (klen : Nat) (entry : EntryP)
    (overwrite : Bool) (touch_index : Nat) (hash start : Nat) :
    Nat → Nat → Nat → Nat → Bool × HE4 × List DCall
  | 0, _index, _lru, lru_index =>
    insert_cell_post t key klen entry overwrite touch_index hash lru_index
  | fuel + 1, index, lru, lru_index =>
    if is_open t index then
      let t1 := setMap t index
        { touch := touch_index, hash := hash, entry := entry, key := key,
          klen := klen }
      (false, { t1 with free := t1.free - 1 }, [])
    else if (mapAt t index).hash == hash &&
        t.compare (mapAt t index).key (mapAt t index).klen key klen == 0 then
      (false,
       setMap t index { mapAt t index with entry := entry, touch := touch_index },
       [DCall.dentry (mapAt t index).entry])
    else
      let next := if (mapAt t index).touch < lru then
          ((mapAt t index).touch, index) else (lru, lru_index)
      let index' := (index + 1) % t.capacity
      if start == index' then
        insert_cell_post t key klen entry overwrite touch_index hash next.2
      else
        insert_cell_loop t key klen entry overwrite touch_index hash start
          fuel index' next.1 next.2

/-- Shared insertion workhorse (`insert_cell`): hash the key, then probe one
full cycle from `hash % capacity`. -/
def insert_cell (t : HE4) (key : KeyP) (klen : Nat) (entry : EntryP)
    (overwrite : Bool) (touch_index : Nat) : Bool × HE4 × List DCall :=
  let hash := t.hash key klen
  let start := hash % t.capacity
  insert_cell_loop t key klen entry overwrite touch_index hash start
    t.capacity start SIZE_MAX start

/-- Plain insertion (`he4_insert`): argument checks, then `insert_cell`
without overwrite; on success the table's `max_touch` is bumped.  Returns the
C boolean (false = inserted, true = failed), the table after the call, and
the destructor calls made. -/
def he4_insert (table : Option HE4) (key : KeyP) (klen : Nat)
    (entry : EntryP) : Bool × Option HE4 × List DCall :=
  match table with
  | none => (true, none, [])
  | some t =>
    if key = none then (true, some t, [])
    else if klen = 0 then (true, some t, [])
    else if entry = none then (true, some t, [])
    else
      let r := insert_cell t key klen entry false (t.max_touch + 1)
      if r.1 then (true, some r.2.1, r.2.2)
      else (false, some { r.2.1 with max_touch := r.2.1.max_touch + 1 }, r.2.2)

/-- Forced insertion (`he4_force_insert`): argument checks, bump `max_touch`,
then `insert_cell` with overwrite enabled.  Returns true exactly when another
entry was overwritten. -/
def he4_force_insert (table : Option HE4) (key : KeyP) (klen : Nat)
    (entry : EntryP) : Bool × Option HE4 × List DCall :=
  match table with
  | none => (true, none, [])
  | some t =>
    if key = none then (true, some t, [])
    else if klen = 0 then (true, some t, [])
    else if entry = none then (true, some t, [])
    else
      let t1 : HE4 := { t with max_touch := t.max_touch + 1 }
      let r := insert_cell t1 key klen entry true t1.max_touch
      (r.1, some r.2.1, r.2.2)

/-- Probe loop of `he4_remove`, transcribed with the C semantics of
`continue` inside a `do`/`while` loop: `continue` jumps to the
`while (start != index)` test without the `index` increment at the bottom of
the body.  One unit of fuel is one execution of the loop body; `none` means
the loop has not finished within the given fuel. -/
def he4_remove_loop (t : HE4) (key : KeyP) (klen : Nat) (hash start : Nat) :
    Nat → Nat → Option (EntryP × HE4 × List DCall)
  | 0, _index => none
  | fuel + 1, index =>
    if is_empty t index then some (none, t, [])
    else if is_deleted t index then
      (if start == index then some (none, t, [])
       else he4_remove_loop t key klen hash start fuel index)
    else if (mapAt t index).hash == hash &&
        t.compare key klen (mapAt t index).key (mapAt t index).klen == 0 then
      let entry := (mapAt t index).entry
      let r := empty_cell t index true false
      let t2 := setMap r.1 index { mapAt r.1 index with klen := 1 }
      some (entry, { t2 with free := t2.free + 1 }, r.2)
    else
      let index' := (index + 1) % t.capacity
      if start == index' then some (none, t, [])
      else he4_remove_loop t key klen hash start fuel index'

/-- Removal (`he4_remove`): argument checks, then the probe loop; a found
entry is handed back to the caller (key destroyed, entry not), the cell is
marked deleted (`klen = 1`) and `free` is incremented. -/
def he4_remove (fuel : Nat) (table : Option HE4) (key : KeyP) (klen : Nat) :
    Option (EntryP × Option HE4 × List DCall) :=
  match table with
  | none => some (none, none, [])
  | some t =>
    if key = none then some (none, some t, [])
    else if klen = 0 then some (none, some t, [])
    else
      let hash := t.hash key klen
      let start := hash % t.capacity
      (he4_remove_loop t key klen hash start fuel start).map
        (fun r => (r.1, some r.2.1, r.2.2))

/-- Probe loop of `he4_discard`; same `continue` transcription as
`he4_remove_loop`. -/
def he4_discard_loop (t : HE4) (key : KeyP) (klen : Nat) (hash start : Nat) :
    Nat → Nat → Option (Bool × HE4 × List DCall)
  | 0, _index => none
  | fuel + 1, index =>
    if is_empty t index then some (true, t, [])
    else if is_deleted t index then
      (if start == index then some (true, t, [])
       else he4_discard_loop t key klen hash start fuel index)
    else if (mapAt t index).hash == hash &&
        t.compare key klen (mapAt t index).key (mapAt t index).klen == 0 then
      let r := empty_cell t index true true
      let t2 := setMap r.1 index { mapAt r.1 index with klen := 1 }
      some (false, { t2 with free := t2.free + 1 }, r.2)
    else
      let index' := (index + 1) % t.capacity
      if start == index' then some (true, t, [])
      else he4_discard_loop t key klen hash start fuel index'

/-- Discard (`he4_discard`): like removal, but the entry is destroyed through
its destructor instead of being returned. -/
def he4_discard (fuel : Nat) (table : Option HE4) (key : KeyP) (klen : Nat) :
    Option (Bool × Option HE4 × List DCall) :=
  match table with
  | none => some (true, none, [])
  | some t =>
    if key = none then some (true, some t, [])
    else if klen = 0 then some (true, some t, [])
    else
      let hash := t.hash key klen
      let start := hash % t.capacity
      (he4_discard_loop t key klen hash start fuel start).map
        (fun r => (r.1, some r.2.1, r.2.2))

/-- Probe loop of `he4_get`: stops at an empty cell, records the first
deleted cell in `lazy_index`, and on a match relocates the found cell to
`lazy_index` when one was recorded, marking the original position with
`klen = 1`. -/
def he4_get_loop (t : HE4) (key : KeyP) (klen : Nat) (hash start : Nat) :
    Nat → Nat → Bool → Nat → EntryP × HE4 × List DCall
  | 0, _index, _lazy, _lazy_index => (none, t, [])
  | fuel + 1, index, lazy, lazy_index =>
    if is_empty t index then (none, t, [])
    else
      let lz := if !lazy && is_deleted t index then (true, index)
                else (lazy, lazy_index)
      if (mapAt t index).hash == hash &&
          t.compare key klen (mapAt t index).key (mapAt t index).klen == 0 then
        let entry := (mapAt t index).entry
        if lz.1 then
          let r := move_cell t index lz.2
          let t2 := setMap r.1 index { mapAt r.1 index with klen := 1 }
          let t3 : HE4 := { t2 with max_touch := t2.max_touch + 1 }
          let t4 := setMap t3 lz.2 { mapAt t3 lz.2 with touch := t3.max_touch }
          (entry, t4, r.2)
        else
          let t3 : HE4 := { t with max_touch := t.max_touch + 1 }
          let t4 := setMap t3 index { mapAt t3 index with touch := t3.max_touch }
          (entry, t4, [])
      else
        let index' := (index + 1) % t.capacity
        if start == index' then (none, t, [])
        else he4_get_loop t key klen hash start fuel index' lz.1 lz.2

/-- Lookup (`he4_get`): argument checks, then the probe loop over one full
cycle.  Returns the entry (by value), the table after the call, and the
destructor calls made. -/
def he4_get (table : Option HE4) (key : KeyP) (klen : Nat) :
    EntryP × Option HE4 × List DCall :=
  match table with
  | none => (none, none, [])
  | some t =>
    if key = none then (none, some t, [])
    else if klen = 0 then (none, some t, [])
    else
      let hash := t.hash key klen
      let start := hash % t.capacity
      let r := he4_get_loop t key klen hash start t.capacity start false 0
      (r.1, some r.2.1, r.2.2)

/-- Probe loop of `he4_find`: as `he4_get_loop`, but the result is the index
of the cell whose `entry` field the returned pointer aliases. -/
def he4_find_loop (t : HE4) (key : KeyP) (klen : Nat) (hash start : Nat) :
    Nat → Nat → Bool → Nat → Option Nat × HE4 × List DCall
  | 0, _index, _lazy, _lazy_index => (none, t, [])
  | fuel + 1, index, lazy, lazy_index =>
    if is_empty t index then (none, t, [])
    else
      let lz := if !lazy && is_deleted t index then (true, index)
                else (lazy, lazy_index)
      if !((mapAt t index).hash == hash) ||
          !(t.compare key klen (mapAt t index).key (mapAt t index).klen == 0) then
        let index' := (index + 1) % t.capacity
        if start == index' then (none, t, [])
        else he4_find_loop t key klen hash start fuel index' lz.1 lz.2
      else
        if lz.1 then
          let r := move_cell t index lz.2
          let t2 := setMap r.1 index { mapAt r.1 index with klen := 1 }
          let t3 : HE4 := { t2 with max_touch := t2.max_touch + 1 }
          let t4 := setMap t3 lz.2 { mapAt t3 lz.2 with touch := t3.max_touch }
          (some lz.2, t4, r.2)
        else
          let t3 : HE4 := { t with max_touch := t.max_touch + 1 }
          let t4 := setMap t3 index { mapAt t3 index with touch := t3.max_touch }
          (some index, t4, [])

/-- Direct lookup (`he4_find`): argument checks, then the probe loop; the
returned index models the `he4_entry_t *` alias into the table's storage. -/
def he4_find (table : Option HE4) (key : KeyP) (klen : Nat) :
    Option Nat × Option HE4 × List DCall :=
  match table with
  | none => (none, none, [])
  | some t =>
    if key = none then (none, some t, [])
    else if klen = 0 then (none, some t, [])
    else
      let hash := t.hash key klen
      let start := hash % t.capacity
      let r := he4_find_loop t key klen hash start t.capacity start false 0
      (r.1, some r.2.1, r.2.2)

/-- Rehash (`he4_rehash`): build a strictly larger table and move every cell
of the old table into it with `insert_cell` — the source does not filter out
empty or deleted cells, so those are "moved" too — then restore the old
`max_touch` and destroy the emptied old table. -/
def he4_rehash (table : Option HE4) (newsize : Nat) :
    Option HE4 × List DCall :=
  match table with
  | none => (none, [])
  | some t =>
    let capacity := if newsize == 0 then t.capacity * 2 else newsize
    if capacity ≤ t.capacity then (some t, [])
    else
      match he4_new capacity t.hash t.compare with
      | none => (none, [])
      | some newtable =>
        let moved := (List.range t.capacity).foldl
          (fun (acc : HE4 × HE4 × List DCall) index =>
            let c := mapAt acc.2.1 index
            let r := insert_cell acc.1 c.key c.klen c.entry false c.touch
            (r.2.1, setMap acc.2.1 index blank_cell, acc.2.2 ++ r.2.2))
          (newtable, t, [])
        let nt2 : HE4 := { moved.1 with max_touch := t.max_touch }
        (some nt2, moved.2.2 ++ he4_delete (some moved.2.1))

/-! ### Probe sequences

The do/while probe loops all traverse the index sequence
`start, start+1, ..., C-1, 0, ..., start-1`.  `probeList cap index n` lists
the next `n` positions starting at `index`; each loop is proved equal to a
structurally recursive traversal (`insertGo`, `getGo`, `findGo`) of that
list, on which the real reasoning is done by list induction. -/

/-- Positions visited by `n` further probe steps from `index`, wrapping at
`cap`. -/
def probeList (cap index n : Nat) : List Nat :=
  (List.range n).map (fun j => (index + j) % cap)

/-- List-indexed version of `insert_cell_loop`, recursing on the remaining
probe positions. -/
def insertGo (t : HE4) (key : KeyP) (klen : Nat) (entry : EntryP)
    (overwrite : Bool) (touch_index : Nat) (hash : Nat) :
    List Nat → Nat → Nat → Bool × HE4 × List DCall
  | [], _lru, lru_index =>
    insert_cell_post t key klen entry overwrite touch_index hash lru_index
  | index :: rest, lru, lru_index =>
    if is_open t index then
      let t1 := setMap t index
        { touch := touch_index, hash := hash, entry := entry, key := key,
          klen := klen }
      (false, { t1 with free := t1.free - 1 }, [])
    else if (mapAt t index).hash == hash &&
        t.compare (mapAt t index).key (mapAt t index).klen key klen == 0 then
      (false,
       setMap t index { mapAt t index with entry := entry, touch := touch_index },
       [DCall.dentry (mapAt t index).entry])
    else
      let next := if (mapAt t index).touch < lru then
          ((mapAt t index).touch, index) else (lru, lru_index)
      insertGo t key klen entry overwrite touch_index hash rest next.1 next.2

/-- List-indexed version of `he4_get_loop`. -/
def getGo (t : HE4) (key : KeyP) (klen : Nat) (hash : Nat) :
    List Nat → Bool → Nat → EntryP × HE4 × List DCall
  | [], _lazy, _lazy_index => (none, t, [])
  | index :: rest, lazy, lazy_index =>
    if is_empty t index then (none, t, [])
    else
      let lz := if !lazy && is_deleted t index then (true, index)
                else (lazy, lazy_index)
      if (mapAt t index).hash == hash &&
          t.compare key klen (mapAt t index).key (mapAt t index).klen == 0 then
        let entry := (mapAt t index).entry
        if lz.1 then
          let r := move_cell t index lz.2
          let t2 := setMap r.1 index { mapAt r.1 index with klen := 1 }
          let t3 : HE4 := { t2 with max_touch := t2.max_touch + 1 }
          let t4 := setMap t3 lz.2 { mapAt t3 lz.2 with touch := t3.max_touch }
          (entry, t4, r.2)
        else
          let t3 : HE4 := { t with max_touch := t.max_touch + 1 }
          let t4 := setMap t3 index { mapAt t3 index with touch := t3.max_touch }
          (entry, t4, [])
      else getGo t key klen hash rest lz.1 lz.2

/-- List-indexed version of `he4_find_loop`. -/
def findGo (t : HE4) (key : KeyP) (klen : Nat) (hash : Nat) :
    List Nat → Bool → Nat → Option Nat × HE4 × List DCall
  | [], _lazy, _lazy_index => (none, t, [])
  | index :: rest, lazy, lazy_index =>
    if is_empty t index then (none, t, [])
    else
      let lz := if !lazy && is_deleted t index then (true, index)
                else (lazy, lazy_index)
      if !((mapAt t index).hash == hash) ||
          !(t.compare key klen (mapAt t index).key (mapAt t index).klen == 0) then
        findGo t key klen hash rest lz.1 lz.2
      else
        if lz.1 then
          let r := move_cell t index lz.2
          let t2 := setMap r.1 index { mapAt r.1 index with klen := 1 }
          let t3 : HE4 := { t2 with max_touch := t2.max_touch + 1 }
          let t4 := setMap t3 lz.2 { mapAt t3 lz.2 with touch := t3.max_touch }
          (some lz.2, t4, r.2)
        else
          let t3 : HE4 := { t with max_touch := t.max_touch + 1 }
          let t4 := setMap t3 index { mapAt t3 index with touch := t3.max_touch }
          (some index, t4, [])

/-- Number of open (non-occupied) cells of a table, counted from the cell
array. -/
def openCount (t : HE4) : Nat := (t.maps.filter (fun c => c.key == none)).length

/-- Well-formedness invariant of tables as constructed by `he4_new` and
maintained by the API: the cell array has `capacity` cells, the capacity
respects the enforced minimum, `free` counts the open cells, and an empty
cell (`klen = 0`) holds no key. -/
structure WellFormed (t : HE4) : Prop where
  len_eq : t.maps.length = t.capacity
  min_cap : HE4_MINIMUM_SIZE ≤ t.capacity
  free_eq : t.free = openCount t
  cells_ok : ∀ c ∈ t.maps, c.klen = 0 → c.key = none

/-- Contract of a caller-supplied equality callback: reflexive, symmetric as
a zero test, and never equating a real key with a NULL pointer. -/
structure CompareOk (cmp : KeyP → Nat → KeyP → Nat → Int) : Prop where
  rfl_zero : ∀ k l, cmp k l k l = 0
  symm_zero : ∀ a la b lb, cmp a la b lb = 0 → cmp b lb a la = 0
  null_ne_left : ∀ k la lb, cmp (some k) la none lb ≠ 0
  null_ne_right : ∀ k la lb, cmp none lb (some k) la ≠ 0

/-- Constant-zero hash function used by the concrete scenarios (any function
of this type is a legal caller-supplied hash). -/
def hashZ : KeyP → Nat → Nat := fun _ _ => 0

/-- A tombstone cell exactly as `he4_remove`/`he4_discard` leave it. -/
def tombC : he4_map_t :=
  { touch := 0, hash := 0, entry := none, key := none, klen := 1 }

/-- Occupied cell holding the one-byte key `[b]` with entry `e` and touch
`tch`; the cached hash 0 agrees with `hashZ`. -/
def occC (b e tch : Nat) : he4_map_t :=
  { touch := tch, hash := 0, entry := some e, key := some [b], klen := 1 }

/-- Scenario table for removal: slot 0 holds key `[1]`, slot 1 is a
tombstone, slot 2 holds key `[9]`; all keys hash to 0. -/
def tRemove : HE4 :=
  { capacity := 64, compare := he4_compare, free := 61, hash := hashZ,
    max_touch := 3,
    maps := (((List.replicate 64 blank_cell).set 0 (occC 1 11 1)).set 1
      tombC).set 2 (occC 9 22 2) }

/-- Scenario table for removal: slot 0 is a tombstone and slot 1 holds key
`[9]`; all keys hash to 0. -/
def tRemove2 : HE4 :=
  { capacity := 64, compare := he4_compare, free := 62, hash := hashZ,
    max_touch := 3,
    maps := ((List.replicate 64 blank_cell).set 0 tombC).set 1 (occC 9 22 2) }

/-- Scenario table for lazy-relocation lookups: slot 0 is a tombstone and
slot 1 holds key `[5]` with entry 7; all keys hash to 0. -/
def tLazy : HE4 :=
  { capacity := 64, compare := he4_compare, free := 63, hash := hashZ,
    max_touch := 3,
    maps := ((List.replicate 64 blank_cell).set 0 tombC).set 1 (occC 5 7 2) }

/-- Least-recently-used tracking of `insert_cell`'s probe loop, as a fold:
running pair of (smallest touch seen, its index); the comparison is strict,
so on ties the first position seen is kept. -/
def lruFold (t : HE4) (ps : List Nat) (b : Nat × Nat) : Nat × Nat :=
  ps.foldl
    (fun b p => if (mapAt t p).touch < b.1 then ((mapAt t p).touch, p) else b) b

/-- Table produced by the lazy-relocation branch of `he4_get`/`he4_find` when
the match at `p` is moved into the recorded deleted slot `d` (which is open,
so `move_cell` frees nothing): the matched cell is copied to `d`, position
`p` is blanked and then remarked with `klen = 1`, `max_touch` is bumped, and
the relocated cell is stamped with the new touch. -/
def relocated (t : HE4) (p d : Nat) : HE4 :=
  let t1 := setMap (setMap t d (mapAt t p)) p blank_cell
  let t2 := setMap t1 p { mapAt t1 p with klen := 1 }
  let t3 : HE4 := { t2 with max_touch := t2.max_touch + 1 }
  setMap t3 d { mapAt t3 d with touch := t3.max_touch }

/-- Iterate `he4_insert` over (key, length, entry) triples, returning the
final table and whether every single insertion reported success. -/
def insertAll (table : Option HE4) : List (Key × Nat × Nat) → Option HE4 × Bool
  | [] => (table, true)
  | kle :: rest =>
    let r := he4_insert table (some kle.1) kle.2.1 (some kle.2.2)
    let r2 := insertAll r.2.1 rest
    (r2.1, !r.1 && r2.2)

/-- A completely full capacity-64 table (constant-zero hash): slot `i` holds
key `[i]` with entry `100 + i`; slot 3 carries the uniquely smallest touch
value 1, every other slot `i` carries touch `i + 2`. -/
def tFull : HE4 :=
  { capacity := 64, compare := he4_compare, free := 0, hash := hashZ,
    max_touch := 100,
    maps := (List.range 64).map
      (fun i => occC i (100 + i) (if i == 3 then 1 else i + 2)) }

/-- Table state after a plain insert lands in the open slot `x`: the slot is
overwritten with the new key, entry, cached hash and touch value, `free` is
decremented by the probe loop, and the wrapping `he4_insert` bumps
`max_touch`. -/
def fillSlot (u : HE4) (x : Nat) (k : Key) (klen e : Nat) : HE4 :=
  { capacity := u.capacity, compare := u.compare, free := u.free - 1,
    hash := u.hash, max_touch := u.max_touch + 1,
    maps := u.maps.set x
      { touch := u.max_touch + 1, hash := u.hash (some k) klen,
        entry := some e, key := some k, klen := klen } }

/-- A blank capacity-64 table (constant-zero hash), as `he4_new` builds. -/
def tBlank : HE4 :=
  { capacity := 64, compare := he4_compare, free := 64, hash := hashZ,
    max_touch := 0, maps := List.replicate 64 blank_cell }

/-- 64 pairwise-distinct single-element keys with distinct entries. -/
def ks64 : List (Key × Nat × Nat) :=
  (List.range 64).map (fun i => ([i], 1, 100 + i))

/-- Cell as rewritten by `insert_cell` when moved into a fresh slot: key,
length, entry and touch are carried over and the cached hash is recomputed
with the (new) table's hash function. -/
def movedCell (hsh : KeyP → Nat → Nat) (c : he4_map_t) : he4_map_t :=
  { touch := c.touch, hash := hsh c.key c.klen, entry := c.entry,
    key := c.key, klen := c.klen }

/-- The cell-moving fold of `he4_rehash` over a list of old-table indices:
state is (new table, old table being blanked, destructor calls so far). -/
def rehashFold (acc : HE4 × HE4 × List DCall) (idxs : List Nat) :
    HE4 × HE4 × List DCall :=
  idxs.foldl
    (fun (acc : HE4 × HE4 × List DCall) index =>
      let c := mapAt acc.2.1 index
      let r := insert_cell acc.1 c.key c.klen c.entry false c.touch
      (r.2.1, setMap acc.2.1 index blank_cell, acc.2.2 ++ r.2.2)) acc

/-- The blank table `he4_new C t.hash t.compare` hands to `he4_rehash`. -/
def nbTable (t : HE4) (C : Nat) : HE4 :=
  { capacity := C, compare := t.compare, free := C, hash := t.hash,
    max_touch := 0, maps := List.replicate C blank_cell }

/-- Invariant of the rehash fold after the first `i` old cells of `t` have
been pushed through `insert_cell` into a capacity-`C` table `u`: fields are
inherited, at most `i` open slots have been consumed, every non-open cell of
`u` is a moved copy of some occupied old cell, and every occupied old cell
below `i` sits at a probe position whose whole probe prefix consists of
moved copies of other occupied old cells. -/
structure RehashInv (t : HE4) (C i : Nat) (u : HE4) : Prop where
  cap_eq : u.capacity = C
  cmp_eq : u.compare = t.compare
  hash_eq : u.hash = t.hash
  len_eq : u.maps.length = C
  open_ge : C ≤ openCount u + i
  cells : ∀ q, q < C → (mapAt u q).key ≠ none →
    ∃ j, j < i ∧ (mapAt t j).key ≠ none ∧
      mapAt u q = movedCell t.hash (mapAt t j)
  placed : ∀ j, j < i → (mapAt t j).key ≠ none →
    ∃ l₁ q l₂,
      probeList C (t.hash (mapAt t j).key (mapAt t j).klen % C) C
        = l₁ ++ q :: l₂ ∧
      mapAt u q = movedCell t.hash (mapAt t j) ∧
      ∀ r ∈ l₁, ∃ j2, j2 < t.capacity ∧ j2 ≠ j ∧
        (mapAt t j2).key ≠ none ∧ mapAt u r = movedCell t.hash (mapAt t j2)

/-- A capacity-64 table (constant-zero hash) holding keys `[5]` and `[9]`
at slots 0 and 1, used to exercise rehashing. -/
def tW : HE4 :=
  { capacity := 64, compare := he4_compare, free := 62, hash := hashZ,
    max_touch := 3,
    maps := ((List.replicate 64 blank_cell).set 0 (occC 5 7 2)).set 1
      (occC 9 11 3) }


theorem probeList_cons (cap index n : Nat) (h : index < cap) :
    probeList cap index (n + 1) =
      index :: probeList cap ((index + 1) % cap) n := by
  unfold probeList
  rw [List.range_succ_eq_map, List.map_cons, List.map_map]
  refine congrArg₂ _ (by simpa using Nat.mod_eq_of_lt h) ?_
  refine List.map_congr_left (fun j _ => ?_)
  show (index + (j + 1)) % cap = ((index + 1) % cap + j) % cap
  rw [Nat.mod_add_mod]
  ring_nf

theorem probeList_length (cap index n : Nat) :
    (probeList cap index n).length = n := by
  simp [probeList]

theorem probeList_lt (cap index n : Nat) (hcap : 0 < cap) :
    ∀ p ∈ probeList cap index n, p < cap := by
  intro p hp
  simp only [probeList, List.mem_map] at hp
  obtain ⟨j, _, rfl⟩ := hp
  exact Nat.mod_lt _ hcap

theorem probeList_mem (cap start i : Nat) (hstart : start < cap)
    (hi : i < cap) : i ∈ probeList cap start cap := by
  simp only [probeList, List.mem_map]
  rcases Nat.lt_or_ge i start with h | h
  · refine ⟨i + cap - start, List.mem_range.mpr (by omega), ?_⟩
    have hs : start + (i + cap - start) = i + cap := by omega
    rw [hs, Nat.add_mod_right]
    exact Nat.mod_eq_of_lt hi
  · exact ⟨i - start, List.mem_range.mpr (by omega),
      by rw [Nat.add_sub_cancel' h]; exact Nat.mod_eq_of_lt hi⟩

theorem probeList_nodup (cap start : Nat) (_hstart : start < cap) :
    (probeList cap start cap).Nodup := by
  refine List.Nodup.map_on ?_ (List.nodup_range _)
  intro j₁ h₁ j₂ h₂ heq
  rw [List.mem_range] at h₁ h₂
  rcases Nat.le_total j₁ j₂ with h | h
  · have hmod : Nat.ModEq cap (start + j₁) (start + j₂) := heq
    have hdvd := (Nat.modEq_iff_dvd' (by omega)).mp hmod
    have hred : start + j₂ - (start + j₁) = j₂ - j₁ := by omega
    rw [hred] at hdvd
    rcases Nat.eq_zero_or_pos (j₂ - j₁) with h0 | h0
    · omega
    · exact absurd (Nat.le_of_dvd h0 hdvd) (by omega)
  · have hmod : Nat.ModEq cap (start + j₂) (start + j₁) := heq.symm
    have hdvd := (Nat.modEq_iff_dvd' (by omega)).mp hmod
    have hred : start + j₁ - (start + j₂) = j₁ - j₂ := by omega
    rw [hred] at hdvd
    rcases Nat.eq_zero_or_pos (j₁ - j₂) with h0 | h0
    · omega
    · exact absurd (Nat.le_of_dvd h0 hdvd) (by omega)

theorem wrap_step (cap start k : Nat) :
    ((start + k) % cap + 1) % cap = (start + (k + 1)) % cap := by
  rw [Nat.mod_add_mod, Nat.add_assoc]

theorem wrap_zero (cap start k n : Nat) (hstart : start < cap)
    (hk : n + 1 + k = cap)
    (he : start = (start + (k + 1)) % cap) : n = 0 := by
  have hcap : 0 < cap := by omega
  have hmod : Nat.ModEq cap start (start + (k + 1)) := by
    show start % cap = (start + (k + 1)) % cap
    rw [Nat.mod_eq_of_lt hstart]; exact he
  have hdvd := (Nat.modEq_iff_dvd' (by omega)).mp hmod
  simp only [Nat.add_sub_cancel_left] at hdvd
  have := Nat.le_of_dvd (by omega) hdvd
  omega

theorem insert_cell_loop_eq_go (t : HE4) (key : KeyP) (klen : Nat)
    (entry : EntryP) (overwrite : Bool) (touch_index : Nat) (hash start : Nat)
    (hstart : start < t.capacity) :
    ∀ fuel k index lru lru_index, fuel + k = t.capacity →
      index = (start + k) % t.capacity →
      insert_cell_loop t key klen entry overwrite touch_index hash start
          fuel index lru lru_index
        = insertGo t key klen entry overwrite touch_index hash
            (probeList t.capacity index fuel) lru lru_index := by
  intro fuel
  induction fuel with
  | zero => intro k index lru li _ _; rfl
  | succ n ih =>
    intro k index lru li hk hidx
    have hcap : 0 < t.capacity := by omega
    have hlt : index < t.capacity := hidx ▸ Nat.mod_lt _ hcap
    have hstep : (index + 1) % t.capacity = (start + (k + 1)) % t.capacity := by
      rw [hidx]; exact wrap_step _ _ _
    rw [probeList_cons _ _ _ hlt]
    simp only [insert_cell_loop, insertGo]
    by_cases ho : is_open t index = true
    · simp only [ho, if_true]
    · simp only [ho, if_false]
      by_cases hm : ((mapAt t index).hash == hash &&
          t.compare (mapAt t index).key (mapAt t index).klen key klen == 0) = true
      · simp only [hm, if_true]
      · simp only [hm, if_false]
        by_cases he : (start == (index + 1) % t.capacity) = true
        · have heq : start = (index + 1) % t.capacity := by simpa using he
          have he' : start = (start + (k + 1)) % t.capacity := by
            rw [← hstep]; exact heq
          have hn : n = 0 := wrap_zero _ _ _ _ hstart hk he'
          subst hn
          simp only [he, if_true]
          rfl
        · simp only [he, if_false]
          exact ih (k + 1) ((index + 1) % t.capacity) _ _ (by omega) hstep

theorem he4_get_loop_eq_go (t : HE4) (key : KeyP) (klen : Nat)
    (hash start : Nat) (hstart : start < t.capacity) :
    ∀ fuel k index lazy lazy_index, fuel + k = t.capacity →
      index = (start + k) % t.capacity →
      he4_get_loop t key klen hash start fuel index lazy lazy_index
        = getGo t key klen hash (probeList t.capacity index fuel)
            lazy lazy_index := by
  intro fuel
  induction fuel with
  | zero => intro k index lazy li _ _; rfl
  | succ n ih =>
    intro k index lazy li hk hidx
    have hcap : 0 < t.capacity := by omega
    have hlt : index < t.capacity := hidx ▸ Nat.mod_lt _ hcap
    have hstep : (index + 1) % t.capacity = (start + (k + 1)) % t.capacity := by
      rw [hidx]; exact wrap_step _ _ _
    rw [probeList_cons _ _ _ hlt]
    simp only [he4_get_loop, getGo]
    by_cases hemp : is_empty t index = true
    · simp only [hemp, if_true]
    · simp only [hemp, if_false]
      by_cases hm : ((mapAt t index).hash == hash &&
          t.compare key klen (mapAt t index).key (mapAt t index).klen == 0) = true
      · simp only [hm, if_true]
      · simp only [hm, if_false]
        by_cases he : (start == (index + 1) % t.capacity) = true
        · have heq : start = (index + 1) % t.capacity := by simpa using he
          have he' : start = (start + (k + 1)) % t.capacity := by
            rw [← hstep]; exact heq
          have hn : n = 0 := wrap_zero _ _ _ _ hstart hk he'
          subst hn
          simp only [he, if_true]
          rfl
        · simp only [he, if_false]
          exact ih (k + 1) ((index + 1) % t.capacity) _ _ (by omega) hstep

theorem he4_find_loop_eq_go (t : HE4) (key : KeyP) (klen : Nat)
    (hash start : Nat) (hstart : start < t.capacity) :
    ∀ fuel k index lazy lazy_index, fuel + k = t.capacity →
      index = (start + k) % t.capacity →
      he4_find_loop t key klen hash start fuel index lazy lazy_index
        = findGo t key klen hash (probeList t.capacity index fuel)
            lazy lazy_index := by
  intro fuel
  induction fuel with
  | zero => intro k index lazy li _ _; rfl
  | succ n ih =>
    intro k index lazy li hk hidx
    have hcap : 0 < t.capacity := by omega
    have hlt : index < t.capacity := hidx ▸ Nat.mod_lt _ hcap
    have hstep : (index + 1) % t.capacity = (start + (k + 1)) % t.capacity := by
      rw [hidx]; exact wrap_step _ _ _
    rw [probeList_cons _ _ _ hlt]
    simp only [he4_find_loop, findGo]
    by_cases hemp : is_empty t index = true
    · simp only [hemp, if_true]
    · simp only [hemp, if_false]
      by_cases hm : (!((mapAt t index).hash == hash) ||
          !(t.compare key klen (mapAt t index).key (mapAt t index).klen == 0)) = true
      · simp only [hm, if_true]
        by_cases he : (start == (index + 1) % t.capacity) = true
        · have heq : start = (index + 1) % t.capacity := by simpa using he
          have he' : start = (start + (k + 1)) % t.capacity := by
            rw [← hstep]; exact heq
          have hn : n = 0 := wrap_zero _ _ _ _ hstart hk he'
          subst hn
          simp only [he, if_true]
          rfl
        · simp only [he, if_false]
          exact ih (k + 1) ((index + 1) % t.capacity) _ _ (by omega) hstep
      · simp only [hm, if_false]
        rfl

theorem start_mod_self (start cap : Nat) (h : start < cap) :
    start = (start + 0) % cap := by
  rw [Nat.add_zero, Nat.mod_eq_of_lt h]

theorem insert_cell_eq_go (t : HE4) (key : KeyP) (klen : Nat) (entry : EntryP)
    (overwrite : Bool) (touch_index : Nat) (hcap : 0 < t.capacity) :
    insert_cell t key klen entry overwrite touch_index =
      insertGo t key klen entry overwrite touch_index (t.hash key klen)
        (probeList t.capacity (t.hash key klen % t.capacity) t.capacity)
        SIZE_MAX (t.hash key klen % t.capacity) := by
  have hstart : t.hash key klen % t.capacity < t.capacity := Nat.mod_lt _ hcap
  exact insert_cell_loop_eq_go t key klen entry overwrite touch_index
    (t.hash key klen) _ hstart t.capacity 0 _ SIZE_MAX _ (by omega)
    (start_mod_self _ _ hstart)

theorem he4_get_eq_go (t : HE4) (key : Key) (klen : Nat)
    (hcap : 0 < t.capacity) (hklen : klen ≠ 0) :
    he4_get (some t) (some key) klen =
      (let r := getGo t (some key) klen (t.hash (some key) klen)
        (probeList t.capacity (t.hash (some key) klen % t.capacity) t.capacity)
        false 0
       (r.1, some r.2.1, r.2.2)) := by
  have hstart : t.hash (some key) klen % t.capacity < t.capacity :=
    Nat.mod_lt _ hcap
  simp only [he4_get]
  rw [if_neg (Option.some_ne_none key), if_neg hklen]
  rw [he4_get_loop_eq_go t (some key) klen _ _ hstart t.capacity 0 _ false 0
    (by omega) (start_mod_self _ _ hstart)]

theorem he4_find_eq_go (t : HE4) (key : Key) (klen : Nat)
    (hcap : 0 < t.capacity) (hklen : klen ≠ 0) :
    he4_find (some t) (some key) klen =
      (let r := findGo t (some key) klen (t.hash (some key) klen)
        (probeList t.capacity (t.hash (some key) klen % t.capacity) t.capacity)
        false 0
       (r.1, some r.2.1, r.2.2)) := by
  have hstart : t.hash (some key) klen % t.capacity < t.capacity :=
    Nat.mod_lt _ hcap
  simp only [he4_find]
  rw [if_neg (Option.some_ne_none key), if_neg hklen]
  rw [he4_find_loop_eq_go t (some key) klen _ _ hstart t.capacity 0 _ false 0
    (by omega) (start_mod_self _ _ hstart)]

theorem length_setMap (t : HE4) (i : Nat) (c : he4_map_t) :
    (setMap t i c).maps.length = t.maps.length := by
  simp [setMap]

theorem mapAt_setMap_self (t : HE4) (i : Nat) (c : he4_map_t)
    (h : i < t.maps.length) : mapAt (setMap t i c) i = c := by
  simp [mapAt, setMap, List.getD_eq_getElem?_getD, List.getElem?_set_self h]

theorem mapAt_setMap_ne (t : HE4) (i j : Nat) (c : he4_map_t) (h : i ≠ j) :
    mapAt (setMap t i c) j = mapAt t j := by
  simp [mapAt, setMap, List.getD_eq_getElem?_getD, List.getElem?_set_ne h]

theorem mapAt_eq_getElem (t : HE4) (i : Nat) (h : i < t.maps.length) :
    mapAt t i = t.maps[i] := by
  simp [mapAt, List.getD_eq_getElem?_getD, List.getElem?_eq_getElem h]

theorem mapAt_mem (t : HE4) (i : Nat) (h : i < t.maps.length) :
    mapAt t i ∈ t.maps := by
  rw [mapAt_eq_getElem t i h]
  exact List.getElem_mem h

theorem openCount_eq_countP (t : HE4) :
    openCount t = t.maps.countP (fun c => c.key == none) := by
  simp [openCount, List.countP_eq_length_filter]

theorem countP_set_of_lt (p : he4_map_t → Bool) :
    ∀ (l : List he4_map_t) (i : Nat) (c : he4_map_t), i < l.length →
      (l.set i c).countP p + (if p (l.getD i blank_cell) then 1 else 0)
        = l.countP p + (if p c then 1 else 0) := by
  intro l
  induction l with
  | nil => intro i c h; simp at h
  | cons a l ih =>
    intro i c h
    cases i with
    | zero =>
      simp only [List.set_cons_zero, List.countP_cons, List.getD_cons_zero]
      omega
    | succ n =>
      have hn : n < l.length := by simpa using h
      have hrec := ih n c hn
      simp only [List.set_cons_succ, List.countP_cons, List.getD_cons_succ]
      omega

theorem openCount_setMap (t : HE4) (i : Nat) (c : he4_map_t)
    (h : i < t.maps.length) :
    openCount (setMap t i c) + (if (mapAt t i).key == none then 1 else 0)
      = openCount t + (if c.key == none then 1 else 0) := by
  have hc := countP_set_of_lt (fun c => c.key == none) t.maps i c h
  simpa [openCount_eq_countP, setMap, mapAt] using hc

theorem exists_first_true (f : Nat → Bool) :
    ∀ l : List Nat, (∃ x ∈ l, f x = true) →
      ∃ l₁ x l₂, l = l₁ ++ x :: l₂ ∧ (∀ y ∈ l₁, f y = false) ∧ f x = true := by
  intro l
  induction l with
  | nil => rintro ⟨x, h, _⟩; cases h
  | cons a l ih =>
    intro h
    by_cases ha : f a = true
    · exact ⟨[], a, l, rfl, by simp, ha⟩
    · obtain ⟨x, hx, hfx⟩ := h
      rcases List.mem_cons.mp hx with rfl | hx'
      · exact absurd hfx ha
      · obtain ⟨l₁, x', l₂, heq, h1, h2⟩ := ih ⟨x, hx', hfx⟩
        refine ⟨a :: l₁, x', l₂, by rw [heq]; rfl, ?_, h2⟩
        intro y hy
        rcases List.mem_cons.mp hy with rfl | hy'
        · exact Bool.not_eq_true _ ▸ eq_false_of_ne_true ha
        · exact h1 y hy'

theorem insertGo_open (t : HE4) (key : KeyP) (klen : Nat) (entry : EntryP)
    (ow : Bool) (ti hash : Nat) (p : Nat) (l : List Nat) (lru li : Nat)
    (h : is_open t p = true) :
    insertGo t key klen entry ow ti hash (p :: l) lru li =
      (false,
       { capacity := t.capacity, compare := t.compare, free := t.free - 1,
         hash := t.hash, max_touch := t.max_touch,
         maps := t.maps.set p
           { touch := ti, hash := hash, entry := entry, key := key,
             klen := klen } }, []) := by
  simp only [insertGo, h]
  rfl

theorem insertGo_matched (t : HE4) (key : KeyP) (klen : Nat) (entry : EntryP)
    (ow : Bool) (ti hash : Nat) (p : Nat) (l : List Nat) (lru li : Nat)
    (h : is_open t p = false)
    (hm : ((mapAt t p).hash == hash &&
      t.compare (mapAt t p).key (mapAt t p).klen key klen == 0) = true) :
    insertGo t key klen entry ow ti hash (p :: l) lru li =
      (false,
       { capacity := t.capacity, compare := t.compare, free := t.free,
         hash := t.hash, max_touch := t.max_touch,
         maps := t.maps.set p
           { mapAt t p with entry := entry, touch := ti } },
       [DCall.dentry (mapAt t p).entry]) := by
  simp only [insertGo, h, hm]
  rfl

theorem insertGo_skip (t : HE4) (key : KeyP) (klen : Nat) (entry : EntryP)
    (ow : Bool) (ti hash : Nat) :
    ∀ l₁ : List Nat,
      (∀ p ∈ l₁, is_open t p = false ∧
        ((mapAt t p).hash == hash &&
          t.compare (mapAt t p).key (mapAt t p).klen key klen == 0) = false) →
      ∀ l₂ lru li,
        insertGo t key klen entry ow ti hash (l₁ ++ l₂) lru li =
          insertGo t key klen entry ow ti hash l₂
            (lruFold t l₁ (lru, li)).1 (lruFold t l₁ (lru, li)).2 := by
  intro l₁
  induction l₁ with
  | nil => intro _ l₂ lru li; rfl
  | cons p l ih =>
    intro hcl l₂ lru li
    have hp := hcl p (List.mem_cons_self p l)
    simp only [List.cons_append, insertGo, hp.1, hp.2]
    exact ih (fun q hq => hcl q (List.mem_cons_of_mem p hq)) l₂ _ _

theorem insertGo_all_skip (t : HE4) (key : KeyP) (klen : Nat) (entry : EntryP)
    (ow : Bool) (ti hash : Nat) (ps : List Nat)
    (hcl : ∀ p ∈ ps, is_open t p = false ∧
      ((mapAt t p).hash == hash &&
        t.compare (mapAt t p).key (mapAt t p).klen key klen == 0) = false)
    (lru li : Nat) :
    insertGo t key klen entry ow ti hash ps lru li =
      insert_cell_post t key klen entry ow ti hash
        (lruFold t ps (lru, li)).2 := by
  have h := insertGo_skip t key klen entry ow ti hash ps hcl [] lru li
  simpa using h

theorem lruFold_spec (t : HE4) :
    ∀ (ps : List Nat) (m v : Nat),
      (lruFold t ps (m, v)).1 ≤ m ∧
      (∀ q ∈ ps, (lruFold t ps (m, v)).1 ≤ (mapAt t q).touch) ∧
      ((lruFold t ps (m, v)).1 < m →
        ∃ l₁ l₂, ps = l₁ ++ (lruFold t ps (m, v)).2 :: l₂ ∧
          (mapAt t (lruFold t ps (m, v)).2).touch = (lruFold t ps (m, v)).1 ∧
          ∀ q ∈ l₁, (lruFold t ps (m, v)).1 < (mapAt t q).touch) ∧
      (¬(lruFold t ps (m, v)).1 < m → lruFold t ps (m, v) = (m, v)) := by
  intro ps
  induction ps with
  | nil =>
    intro m v
    exact ⟨le_refl _, by simp, fun h => absurd h (lt_irrefl m), fun _ => rfl⟩
  | cons p l ih =>
    intro m v
    by_cases h : (mapAt t p).touch < m
    · have hstep : lruFold t (p :: l) (m, v) =
          lruFold t l ((mapAt t p).touch, p) := by
        simp [lruFold, h]
      obtain ⟨ih1, ih2, ih3, ih4⟩ := ih (mapAt t p).touch p
      rw [hstep]
      refine ⟨le_trans ih1 (le_of_lt h), ?_, ?_, ?_⟩
      · intro q hq
        rcases List.mem_cons.mp hq with rfl | hq'
        · exact ih1
        · exact ih2 q hq'
      · intro _
        by_cases h2 : (lruFold t l ((mapAt t p).touch, p)).1 < (mapAt t p).touch
        · obtain ⟨l₁, l₂, heq, htch, hgt⟩ := ih3 h2
          refine ⟨p :: l₁, l₂, by rw [List.cons_append, ← heq], htch, ?_⟩
          intro q hq
          rcases List.mem_cons.mp hq with rfl | hq'
          · exact h2
          · exact hgt q hq'
        · have hid := ih4 h2
          refine ⟨[], l, by simp [hid], by rw [hid], by simp⟩
      · intro h2
        exact absurd (lt_of_le_of_lt ih1 h) h2
    · have hstep : lruFold t (p :: l) (m, v) = lruFold t l (m, v) := by
        simp [lruFold, h]
      obtain ⟨ih1, ih2, ih3, ih4⟩ := ih m v
      rw [hstep]
      refine ⟨ih1, ?_, ?_, ih4⟩
      · intro q hq
        rcases List.mem_cons.mp hq with rfl | hq'
        · exact le_trans ih1 (Nat.le_of_not_lt h)
        · exact ih2 q hq'
      · intro hlt
        obtain ⟨l₁, l₂, heq, htch, hgt⟩ := ih3 hlt
        refine ⟨p :: l₁, l₂, by rw [List.cons_append, ← heq], htch, ?_⟩
        intro q hq
        rcases List.mem_cons.mp hq with rfl | hq'
        · exact lt_of_lt_of_le hlt (Nat.le_of_not_lt h)
        · exact hgt q hq'

theorem mapAt_max_touch_update (t : HE4) (v q : Nat) :
    mapAt { t with max_touch := v } q = mapAt t q := rfl

theorem getGo_cons_empty (t : HE4) (key : KeyP) (klen hash : Nat) (p : Nat)
    (l : List Nat) (lazy : Bool) (li : Nat) (h : is_empty t p = true) :
    getGo t key klen hash (p :: l) lazy li = (none, t, []) := by
  simp only [getGo, h]
  rfl

theorem getGo_found_entry (t : HE4) (key : KeyP) (klen hash : Nat) (p : Nat)
    (l : List Nat) (lazy : Bool) (li : Nat) (hemp : is_empty t p = false)
    (hm : ((mapAt t p).hash == hash &&
      t.compare key klen (mapAt t p).key (mapAt t p).klen == 0) = true) :
    (getGo t key klen hash (p :: l) lazy li).1 = (mapAt t p).entry := by
  simp only [getGo, hemp, hm, Bool.false_eq_true, if_false, if_true]
  by_cases hb : ((if !lazy && is_deleted t p then (true, p)
      else (lazy, li)).1 = true)
  · rw [if_pos hb]
  · rw [if_neg hb]

theorem getGo_cons_skip (t : HE4) (key : KeyP) (klen hash : Nat) (p : Nat)
    (l : List Nat) (lazy : Bool) (li : Nat) (hemp : is_empty t p = false)
    (hm : ((mapAt t p).hash == hash &&
      t.compare key klen (mapAt t p).key (mapAt t p).klen == 0) = false) :
    getGo t key klen hash (p :: l) lazy li =
      getGo t key klen hash l
        (if !lazy && is_deleted t p then (true, p) else (lazy, li)).1
        (if !lazy && is_deleted t p then (true, p) else (lazy, li)).2 := by
  simp only [getGo, hemp, hm, Bool.false_eq_true, if_false]

theorem getGo_result_through (t : HE4) (key : KeyP) (klen hash : Nat) :
    ∀ l₁ : List Nat,
      (∀ q ∈ l₁, is_empty t q = false ∧
        ((mapAt t q).hash == hash &&
          t.compare key klen (mapAt t q).key (mapAt t q).klen == 0) = false) →
      ∀ l₂ lazy li, ∃ b : Bool × Nat,
        getGo t key klen hash (l₁ ++ l₂) lazy li = getGo t key klen hash l₂ b.1 b.2 := by
  intro l₁
  induction l₁ with
  | nil => intro _ l₂ lazy li; exact ⟨(lazy, li), rfl⟩
  | cons p l ih =>
    intro hcl l₂ lazy li
    have hp := hcl p (List.mem_cons_self p l)
    rw [List.cons_append, getGo_cons_skip t key klen hash p (l ++ l₂) lazy li hp.1 hp.2]
    exact ih (fun q hq => hcl q (List.mem_cons_of_mem p hq)) l₂ _ _

theorem getGo_clean_pass (t : HE4) (key : KeyP) (klen hash : Nat) :
    ∀ l₁ : List Nat,
      (∀ q ∈ l₁, is_empty t q = false ∧ is_deleted t q = false ∧
        ((mapAt t q).hash == hash &&
          t.compare key klen (mapAt t q).key (mapAt t q).klen == 0) = false) →
      ∀ l₂ li, getGo t key klen hash (l₁ ++ l₂) false li =
        getGo t key klen hash l₂ false li := by
  intro l₁
  induction l₁ with
  | nil => intro _ l₂ li; rfl
  | cons p l ih =>
    intro hcl l₂ li
    have hp := hcl p (List.mem_cons_self p l)
    rw [List.cons_append,
      getGo_cons_skip t key klen hash p (l ++ l₂) false li hp.1 hp.2.2]
    simp only [hp.2.1, Bool.not_false, Bool.true_and, Bool.false_eq_true, if_false]
    exact ih (fun q hq => hcl q (List.mem_cons_of_mem p hq)) l₂ li

theorem getGo_lazy_pass (t : HE4) (key : KeyP) (klen hash : Nat) :
    ∀ l₁ : List Nat,
      (∀ q ∈ l₁, is_empty t q = false ∧
        ((mapAt t q).hash == hash &&
          t.compare key klen (mapAt t q).key (mapAt t q).klen == 0) = false) →
      ∀ l₂ d, getGo t key klen hash (l₁ ++ l₂) true d =
        getGo t key klen hash l₂ true d := by
  intro l₁
  induction l₁ with
  | nil => intro _ l₂ d; rfl
  | cons p l ih =>
    intro hcl l₂ d
    have hp := hcl p (List.mem_cons_self p l)
    rw [List.cons_append,
      getGo_cons_skip t key klen hash p (l ++ l₂) true d hp.1 hp.2]
    simp only [Bool.not_true, Bool.false_and, Bool.false_eq_true, if_false]
    exact ih (fun q hq => hcl q (List.mem_cons_of_mem p hq)) l₂ d

theorem getGo_deleted_step (t : HE4) (key : KeyP) (klen hash : Nat) (p : Nat)
    (l : List Nat) (li : Nat) (hdel : is_deleted t p = true)
    (hm : ((mapAt t p).hash == hash &&
      t.compare key klen (mapAt t p).key (mapAt t p).klen == 0) = false) :
    getGo t key klen hash (p :: l) false li = getGo t key klen hash l true p := by
  have hemp : is_empty t p = false := by
    have h1 := (Bool.and_eq_true_iff.mp hdel).1
    simp only [is_empty]
    simp only [decide_eq_true_eq] at h1
    simp [Nat.pos_iff_ne_zero.mp h1]
  rw [getGo_cons_skip t key klen hash p l false li hemp hm]
  simp only [hdel, Bool.not_false, Bool.true_and, if_true]

theorem getGo_found_lazy (t : HE4) (key : KeyP) (klen hash : Nat)
    (p : Nat) (l : List Nat) (d : Nat)
    (hdel : is_deleted t d = true) (hemp : is_empty t p = false)
    (hm : ((mapAt t p).hash == hash &&
      t.compare key klen (mapAt t p).key (mapAt t p).klen == 0) = true) :
    getGo t key klen hash (p :: l) true d =
      ((mapAt t p).entry, relocated t p d, []) := by
  have hopen : is_open t d = true := by
    simp only [is_open]
    exact (Bool.and_eq_true_iff.mp hdel).2
  simp only [getGo, hemp, hm, Bool.false_eq_true, if_false, if_true,
    Bool.not_true, Bool.false_and, move_cell, hopen, Bool.not_false,
    relocated]

theorem findGo_found_lazy (t : HE4) (key : KeyP) (klen hash : Nat)
    (p : Nat) (l : List Nat) (d : Nat)
    (hdel : is_deleted t d = true) (hemp : is_empty t p = false)
    (hm : ((mapAt t p).hash == hash &&
      t.compare key klen (mapAt t p).key (mapAt t p).klen == 0) = true) :
    findGo t key klen hash (p :: l) true d =
      (some d, relocated t p d, []) := by
  have hopen : is_open t d = true := by
    simp only [is_open]
    exact (Bool.and_eq_true_iff.mp hdel).2
  have hm2 : (!((mapAt t p).hash == hash) ||
      !(t.compare key klen (mapAt t p).key (mapAt t p).klen == 0)) = false := by
    rw [← Bool.not_and, hm]
    rfl
  simp only [findGo, hemp, hm2, Bool.false_eq_true, if_false, if_true,
    Bool.not_true, Bool.false_and, move_cell, hopen, Bool.not_false,
    relocated]

theorem relocated_at_d (t : HE4) (p d : Nat) (hd : d < t.maps.length)
    (hne : p ≠ d) :
    mapAt (relocated t p d) d = { mapAt t p with touch := t.max_touch + 1 } := by
  have hne' : d ≠ p := Ne.symm hne
  simp [relocated, mapAt, setMap, List.getD_eq_getElem?_getD,
    List.getElem?_set_self, List.getElem?_set_ne, hd, hne, hne',
    List.getElem?_eq_getElem]

theorem relocated_at_p (t : HE4) (p d : Nat) (hp : p < t.maps.length)
    (hne : p ≠ d) :
    mapAt (relocated t p d) p =
      { touch := 0, hash := 0, entry := none, key := none, klen := 1 } := by
  have hne' : d ≠ p := Ne.symm hne
  simp [relocated, mapAt, setMap, List.getD_eq_getElem?_getD,
    List.getElem?_set_self, List.getElem?_set_ne, hp, hne, hne',
    List.getElem?_eq_getElem, blank_cell]

theorem relocated_at_other (t : HE4) (p d q : Nat) (hqp : q ≠ p)
    (hqd : q ≠ d) : mapAt (relocated t p d) q = mapAt t q := by
  have h1 : p ≠ q := Ne.symm hqp
  have h2 : d ≠ q := Ne.symm hqd
  simp [relocated, mapAt, setMap, List.getD_eq_getElem?_getD,
    List.getElem?_set_ne, h1, h2]

theorem relocated_fields (t : HE4) (p d : Nat) :
    (relocated t p d).max_touch = t.max_touch + 1 ∧
    (relocated t p d).free = t.free ∧
    (relocated t p d).capacity = t.capacity ∧
    (relocated t p d).maps.length = t.maps.length := by
  refine ⟨rfl, rfl, rfl, ?_⟩
  unfold relocated
  simp only [length_setMap]

theorem findGo_cons_skip (t : HE4) (key : KeyP) (klen hash : Nat) (p : Nat)
    (l : List Nat) (lazy : Bool) (li : Nat) (hemp : is_empty t p = false)
    (hm : ((mapAt t p).hash == hash &&
      t.compare key klen (mapAt t p).key (mapAt t p).klen == 0) = false) :
    findGo t key klen hash (p :: l) lazy li =
      findGo t key klen hash l
        (if !lazy && is_deleted t p then (true, p) else (lazy, li)).1
        (if !lazy && is_deleted t p then (true, p) else (lazy, li)).2 := by
  have hm2 : (!((mapAt t p).hash == hash) ||
      !(t.compare key klen (mapAt t p).key (mapAt t p).klen == 0)) = true := by
    rw [← Bool.not_and, hm]
    rfl
  simp only [findGo, hemp, hm2, Bool.false_eq_true, if_false, if_true]

theorem findGo_clean_pass (t : HE4) (key : KeyP) (klen hash : Nat) :
    ∀ l₁ : List Nat,
      (∀ q ∈ l₁, is_empty t q = false ∧ is_deleted t q = false ∧
        ((mapAt t q).hash == hash &&
          t.compare key klen (mapAt t q).key (mapAt t q).klen == 0) = false) →
      ∀ l₂ li, findGo t key klen hash (l₁ ++ l₂) false li =
        findGo t key klen hash l₂ false li := by
  intro l₁
  induction l₁ with
  | nil => intro _ l₂ li; rfl
  | cons p l ih =>
    intro hcl l₂ li
    have hp := hcl p (List.mem_cons_self p l)
    rw [List.cons_append,
      findGo_cons_skip t key klen hash p (l ++ l₂) false li hp.1 hp.2.2]
    simp only [hp.2.1, Bool.not_false, Bool.true_and, Bool.false_eq_true, if_false]
    exact ih (fun q hq => hcl q (List.mem_cons_of_mem p hq)) l₂ li

theorem findGo_lazy_pass (t : HE4) (key : KeyP) (klen hash : Nat) :
    ∀ l₁ : List Nat,
      (∀ q ∈ l₁, is_empty t q = false ∧
        ((mapAt t q).hash == hash &&
          t.compare key klen (mapAt t q).key (mapAt t q).klen == 0) = false) →
      ∀ l₂ d, findGo t key klen hash (l₁ ++ l₂) true d =
        findGo t key klen hash l₂ true d := by
  intro l₁
  induction l₁ with
  | nil => intro _ l₂ d; rfl
  | cons p l ih =>
    intro hcl l₂ d
    have hp := hcl p (List.mem_cons_self p l)
    rw [List.cons_append,
      findGo_cons_skip t key klen hash p (l ++ l₂) true d hp.1 hp.2]
    simp only [Bool.not_true, Bool.false_and, Bool.false_eq_true, if_false]
    exact ih (fun q hq => hcl q (List.mem_cons_of_mem p hq)) l₂ d

theorem findGo_deleted_step (t : HE4) (key : KeyP) (klen hash : Nat) (p : Nat)
    (l : List Nat) (li : Nat) (hdel : is_deleted t p = true)
    (hm : ((mapAt t p).hash == hash &&
      t.compare key klen (mapAt t p).key (mapAt t p).klen == 0) = false) :
    findGo t key klen hash (p :: l) false li = findGo t key klen hash l true p := by
  have hemp : is_empty t p = false := by
    have h1 := (Bool.and_eq_true_iff.mp hdel).1
    simp only [is_empty]
    simp only [decide_eq_true_eq] at h1
    simp [Nat.pos_iff_ne_zero.mp h1]
  rw [findGo_cons_skip t key klen hash p l false li hemp hm]
  simp only [hdel, Bool.not_false, Bool.true_and, if_true]

theorem he4_compare_ok : CompareOk he4_compare := by
  refine ⟨?_, ?_, ?_, ?_⟩
  · intro k l
    cases k with
    | none => simp [he4_compare]
    | some a => simp [he4_compare]
  · intro a la b lb h
    unfold he4_compare at h ⊢
    by_cases hl : la = lb
    · subst hl
      simp only [ne_eq, not_true_eq_false, if_false, ite_false] at h ⊢
      match a, b with
      | some x, some y =>
        simp only at h ⊢
        split at h
        · next heq => simp [heq]
        · exact absurd h (by norm_num)
      | none, none => rfl
      | some x, none => exact absurd h (by norm_num)
      | none, some y => exact absurd h (by norm_num)
    · rw [if_pos hl] at h
      exact absurd h (by norm_num)
  · intro k la lb
    unfold he4_compare
    by_cases hl : la = lb
    · subst hl; simp
    · simp [hl]
  · intro k la lb
    unfold he4_compare
    by_cases hl : lb = la
    · subst hl; simp
    · simp [hl]

theorem he4_get_found (t : HE4) (hcap : 0 < t.capacity)
    (k : Key) (klen : Nat) (hklen : klen ≠ 0)
    (l₁ : List Nat) (p : Nat) (l₂ : List Nat)
    (hdecomp : probeList t.capacity (t.hash (some k) klen % t.capacity)
      t.capacity = l₁ ++ p :: l₂)
    (hcl : ∀ q ∈ l₁, is_empty t q = false ∧
      ((mapAt t q).hash == t.hash (some k) klen &&
        t.compare (some k) klen (mapAt t q).key (mapAt t q).klen == 0) = false)
    (hemp : is_empty t p = false)
    (hm : ((mapAt t p).hash == t.hash (some k) klen &&
      t.compare (some k) klen (mapAt t p).key (mapAt t p).klen == 0) = true) :
    (he4_get (some t) (some k) klen).1 = (mapAt t p).entry := by
  rw [he4_get_eq_go t k klen hcap hklen]
  show (getGo t (some k) klen (t.hash (some k) klen)
    (probeList t.capacity (t.hash (some k) klen % t.capacity) t.capacity)
    false 0).1 = (mapAt t p).entry
  rw [hdecomp]
  obtain ⟨b, hb⟩ := getGo_result_through t (some k) klen
    (t.hash (some k) klen) l₁ hcl (p :: l₂) false 0
  rw [hb]
  exact getGo_found_entry t (some k) klen (t.hash (some k) klen) p l₂
    b.1 b.2 hemp hm

theorem gmatch_false_of_imatch_false (t : HE4) (hcmp : CompareOk t.compare)
    (k : Key) (klen : Nat) (hval : Nat) (c : he4_map_t)
    (him : (c.hash == hval &&
      t.compare c.key c.klen (some k) klen == 0) = false) :
    (c.hash == hval &&
      t.compare (some k) klen c.key c.klen == 0) = false := by
  rcases Bool.and_eq_false_iff.mp him with hA | hB
  · simp [hA]
  · have hne : t.compare (some k) klen c.key c.klen ≠ 0 := by
      intro h0
      exact beq_eq_false_iff_ne.mp hB (hcmp.symm_zero _ _ _ _ h0)
    exact Bool.and_eq_false_iff.mpr (Or.inr (beq_eq_false_iff_ne.mpr hne))

theorem mem_of_probe_decomp (cap start : Nat) (l₁ : List Nat) (x : Nat)
    (l₂ : List Nat) (hcap : 0 < cap) (hstart : start < cap)
    (hdecomp : probeList cap start cap = l₁ ++ x :: l₂) :
    x < cap := by
  refine probeList_lt cap start cap hcap x ?_
  rw [hdecomp]
  simp

theorem not_mem_of_probe_decomp (cap start : Nat) (l₁ : List Nat) (x : Nat)
    (l₂ : List Nat) (hstart : start < cap)
    (hdecomp : probeList cap start cap = l₁ ++ x :: l₂) :
    x ∉ l₁ := by
  have hnd := probeList_nodup cap start hstart
  rw [hdecomp] at hnd
  obtain ⟨-, -, hdisj⟩ := List.nodup_append.mp hnd
  intro hx
  exact hdisj hx (List.mem_cons_self x l₂)

/-- Claim C2: inserting a valid key/entry pair into a valid non-full table
succeeds, and looking the same key up afterwards returns exactly the inserted
entry. -/
theorem insert_then_get (t : HE4) (hwf : WellFormed t)
    (hcmp : CompareOk t.compare) (hfree : 0 < t.free) (k : Key) (klen : Nat)
    (hklen : klen ≠ 0) (e : Nat) :
    (he4_insert (some t) (some k) klen (some e)).1 = false ∧
    (he4_get (he4_insert (some t) (some k) klen (some e)).2.1 (some k) klen).1
      = some e := by
  have hcap : 0 < t.capacity := lt_of_lt_of_le (by decide) hwf.min_cap
  have hlen := hwf.len_eq
  have hstart : t.hash (some k) klen % t.capacity < t.capacity :=
    Nat.mod_lt _ hcap
  -- an open slot exists somewhere
  have hopen_ex : ∃ i, i < t.capacity ∧ is_open t i = true := by
    have h1 : 0 < openCount t := hwf.free_eq ▸ hfree
    rw [openCount_eq_countP] at h1
    obtain ⟨c, hcmem, hcp⟩ := List.countP_pos.mp h1
    obtain ⟨i, hilt, hget⟩ := List.mem_iff_getElem.mp hcmem
    refine ⟨i, hlen ▸ hilt, ?_⟩
    simp only [is_open, mapAt_eq_getElem t i hilt, hget]
    exact hcp
  obtain ⟨i, hi, hio⟩ := hopen_ex
  have hstop : ∃ x ∈ probeList t.capacity
      (t.hash (some k) klen % t.capacity) t.capacity,
      (is_open t x || ((mapAt t x).hash == t.hash (some k) klen &&
        t.compare (mapAt t x).key (mapAt t x).klen (some k) klen == 0))
        = true :=
    ⟨i, probeList_mem _ _ _ hstart hi, by simp [hio]⟩
  obtain ⟨l₁, q, l₂, hdecomp, hclean, hstopq⟩ :=
    exists_first_true _ _ hstop
  have hql : q < t.capacity :=
    mem_of_probe_decomp _ _ _ _ _ hcap hstart hdecomp
  have hqnot : q ∉ l₁ := not_mem_of_probe_decomp _ _ _ _ _ hstart hdecomp
  have hclean' : ∀ y ∈ l₁, is_open t y = false ∧
      ((mapAt t y).hash == t.hash (some k) klen &&
        t.compare (mapAt t y).key (mapAt t y).klen (some k) klen == 0)
        = false := by
    intro y hy
    exact Bool.or_eq_false_iff.mp (hclean y hy)
  have hlt_l₁ : ∀ y ∈ l₁, y < t.capacity := by
    intro y hy
    refine probeList_lt t.capacity (t.hash (some k) klen % t.capacity)
      t.capacity hcap y ?_
    rw [hdecomp]
    exact List.mem_append_left _ hy
  -- empty-ness facts derived from the well-formedness of cells
  have hnotempty : ∀ y, y < t.capacity → is_open t y = false →
      is_empty t y = false := by
    intro y hylt hyo
    have hkey : (mapAt t y).key ≠ none := by
      simpa [is_open] using hyo
    have hklen0 : (mapAt t y).klen ≠ 0 := by
      intro h0
      exact hkey (hwf.cells_ok _ (mapAt_mem t y (hlen ▸ hylt)) h0)
    simpa [is_empty] using hklen0
  by_cases hq : is_open t q = true
  · -- the probe stops at an open slot and writes the new cell there
    have hins : he4_insert (some t) (some k) klen (some e) =
        (false, some
          { capacity := t.capacity, compare := t.compare, free := t.free - 1,
            hash := t.hash, max_touch := t.max_touch + 1,
            maps := t.maps.set q
              { touch := t.max_touch + 1, hash := t.hash (some k) klen,
                entry := some e, key := some k, klen := klen } }, []) := by
      simp only [he4_insert]
      rw [if_neg (Option.some_ne_none k), if_neg hklen,
        if_neg (Option.some_ne_none e)]
      rw [insert_cell_eq_go t (some k) klen (some e) false (t.max_touch + 1)
        hcap, hdecomp,
        insertGo_skip t (some k) klen (some e) false (t.max_touch + 1)
          (t.hash (some k) klen) l₁ hclean' (q :: l₂) SIZE_MAX
          (t.hash (some k) klen % t.capacity),
        insertGo_open t (some k) klen (some e) false (t.max_touch + 1)
          (t.hash (some k) klen) q l₂ _ _ hq]
      rfl
    rw [hins]
    refine ⟨rfl, ?_⟩
    show (he4_get (some _) (some k) klen).1 = some e
    set T : HE4 :=
      { capacity := t.capacity, compare := t.compare, free := t.free - 1,
        hash := t.hash, max_touch := t.max_touch + 1,
        maps := t.maps.set q
          { touch := t.max_touch + 1, hash := t.hash (some k) klen,
            entry := some e, key := some k, klen := klen } } with hT
    have hTother : ∀ y, y ≠ q → mapAt T y = mapAt t y := by
      intro y hy
      show mapAt (setMap t q _) y = mapAt t y
      exact mapAt_setMap_ne t q y _ (fun h => hy h.symm)
    have hTq : mapAt T q =
        { touch := t.max_touch + 1, hash := t.hash (some k) klen,
          entry := some e, key := some k, klen := klen } := by
      show mapAt (setMap t q _) q = _
      exact mapAt_setMap_self t q _ (hlen ▸ hql)
    have hThash : T.hash = t.hash := rfl
    have hTcmp : T.compare = t.compare := rfl
    have hres := he4_get_found T hcap k klen hklen l₁ q l₂ hdecomp ?_ ?_ ?_
    · rw [hres, hTq]
    · intro y hy
      have hmy : mapAt T y = mapAt t y := hTother y (fun h => hqnot (h ▸ hy))
      constructor
      · have h1 := hnotempty y (hlt_l₁ y hy) (hclean' y hy).1
        simp only [is_empty, hmy]
        simpa [is_empty] using h1
      · simp only [hmy, hThash, hTcmp]
        exact gmatch_false_of_imatch_false t hcmp k klen _ _ (hclean' y hy).2
    · simp only [is_empty, hTq]
      simpa using hklen
    · simp only [hTq, hThash, hTcmp]
      refine Bool.and_eq_true_iff.mpr ⟨by simp, ?_⟩
      have h0 := hcmp.rfl_zero (some k) klen
      simp [h0]
  · -- the probe stops at a matching occupied slot; only the entry is replaced
    have hqm : ((mapAt t q).hash == t.hash (some k) klen &&
        t.compare (mapAt t q).key (mapAt t q).klen (some k) klen == 0)
        = true := by
      rcases Bool.or_eq_true_iff.mp hstopq with h | h
      · exact absurd h hq
      · exact h
    have hqo : is_open t q = false := eq_false_of_ne_true hq
    have hins : he4_insert (some t) (some k) klen (some e) =
        (false, some
          { capacity := t.capacity, compare := t.compare, free := t.free,
            hash := t.hash, max_touch := t.max_touch + 1,
            maps := t.maps.set q
              { mapAt t q with entry := some e, touch := t.max_touch + 1 } },
         [DCall.dentry (mapAt t q).entry]) := by
      simp only [he4_insert]
      rw [if_neg (Option.some_ne_none k), if_neg hklen,
        if_neg (Option.some_ne_none e)]
      rw [insert_cell_eq_go t (some k) klen (some e) false (t.max_touch + 1)
        hcap, hdecomp,
        insertGo_skip t (some k) klen (some e) false (t.max_touch + 1)
          (t.hash (some k) klen) l₁ hclean' (q :: l₂) SIZE_MAX
          (t.hash (some k) klen % t.capacity),
        insertGo_matched t (some k) klen (some e) false (t.max_touch + 1)
          (t.hash (some k) klen) q l₂ _ _ hqo hqm]
      rfl
    rw [hins]
    refine ⟨rfl, ?_⟩
    show (he4_get (some _) (some k) klen).1 = some e
    set T : HE4 :=
      { capacity := t.capacity, compare := t.compare, free := t.free,
        hash := t.hash, max_touch := t.max_touch + 1,
        maps := t.maps.set q
          { mapAt t q with entry := some e, touch := t.max_touch + 1 } }
      with hT
    have hTother : ∀ y, y ≠ q → mapAt T y = mapAt t y := by
      intro y hy
      show mapAt (setMap t q _) y = mapAt t y
      exact mapAt_setMap_ne t q y _ (fun h => hy h.symm)
    have hTq : mapAt T q =
        { mapAt t q with entry := some e, touch := t.max_touch + 1 } := by
      show mapAt (setMap t q _) q = _
      exact mapAt_setMap_self t q _ (hlen ▸ hql)
    have hThash : T.hash = t.hash := rfl
    have hTcmp : T.compare = t.compare := rfl
    have hres := he4_get_found T hcap k klen hklen l₁ q l₂ hdecomp ?_ ?_ ?_
    · rw [hres, hTq]
    · intro y hy
      have hmy : mapAt T y = mapAt t y := hTother y (fun h => hqnot (h ▸ hy))
      constructor
      · have h1 := hnotempty y (hlt_l₁ y hy) (hclean' y hy).1
        simp only [is_empty, hmy]
        simpa [is_empty] using h1
      · simp only [hmy, hThash, hTcmp]
        exact gmatch_false_of_imatch_false t hcmp k klen _ _ (hclean' y hy).2
    · have h1 := hnotempty q hql hqo
      simp only [is_empty, hTq]
      simpa [is_empty] using h1
    · simp only [hTq, hThash, hTcmp]
      have hand := Bool.and_eq_true_iff.mp hqm
      refine Bool.and_eq_true_iff.mpr ⟨?_, ?_⟩
      · simpa using hand.1
      · have h0 : t.compare (mapAt t q).key (mapAt t q).klen (some k) klen = 0 :=
          by simpa using hand.2
        have h1 := hcmp.symm_zero _ _ _ _ h0
        simp [h1]

theorem insert_then_get_witness :
    (he4_insert (some tLazy) (some [3]) 1 (some 9)).1 = false ∧
    (he4_get (he4_insert (some tLazy) (some [3]) 1 (some 9)).2.1
      (some [3]) 1).1 = some 9 :=
  insert_then_get tLazy ⟨by decide, by decide, by decide, by decide⟩
    he4_compare_ok (by decide) [3] 1 (by decide) 9

/-- Claim C6 (amended): when a lookup (`he4_get` or `he4_find`) matches a key
at position `p` after having passed over the first Deleted slot `d`, the
matched slot's full contents are relocated into `d` with a fresh touch value,
the original matched position `p` is marked Deleted (`klen = 1`, key absent)
— not Empty — and the returned entry (resp. aliased reference) is the one
now stored at `d`. -/
theorem get_find_lazy_relocation (t : HE4) (hwf : WellFormed t)
    (hcmp : CompareOk t.compare) (k : Key) (klen : Nat) (hklen : klen ≠ 0)
    (l₁ : List Nat) (d : Nat) (l₂ : List Nat) (p : Nat) (l₃ : List Nat)
    (hdecomp : probeList t.capacity (t.hash (some k) klen % t.capacity)
      t.capacity = l₁ ++ (d :: (l₂ ++ (p :: l₃))))
    (hl₁ : ∀ q ∈ l₁, is_empty t q = false ∧ is_deleted t q = false ∧
      ((mapAt t q).hash == t.hash (some k) klen &&
        t.compare (some k) klen (mapAt t q).key (mapAt t q).klen == 0)
        = false)
    (hdel : is_deleted t d = true)
    (hl₂ : ∀ q ∈ l₂, is_empty t q = false ∧
      ((mapAt t q).hash == t.hash (some k) klen &&
        t.compare (some k) klen (mapAt t q).key (mapAt t q).klen == 0)
        = false)
    (hemp : is_empty t p = false)
    (hm : ((mapAt t p).hash == t.hash (some k) klen &&
      t.compare (some k) klen (mapAt t p).key (mapAt t p).klen == 0)
      = true) :
    he4_get (some t) (some k) klen =
      ((mapAt t p).entry, some (relocated t p d), []) ∧
    he4_find (some t) (some k) klen =
      (some d, some (relocated t p d), []) ∧
    (mapAt (relocated t p d) d).entry = (mapAt t p).entry ∧
    mapAt (relocated t p d) d = { mapAt t p with touch := t.max_touch + 1 } ∧
    mapAt (relocated t p d) p =
      { touch := 0, hash := 0, entry := none, key := none, klen := 1 } ∧
    is_deleted (relocated t p d) p = true ∧
    is_empty (relocated t p d) p = false ∧
    (relocated t p d).max_touch = t.max_touch + 1 := by
  have hcap : 0 < t.capacity := lt_of_lt_of_le (by decide) hwf.min_cap
  have hlen := hwf.len_eq
  have hstart : t.hash (some k) klen % t.capacity < t.capacity :=
    Nat.mod_lt _ hcap
  have hdlt : d < t.capacity := by
    refine probeList_lt t.capacity (t.hash (some k) klen % t.capacity)
      t.capacity hcap d ?_
    rw [hdecomp]
    simp
  have hplt : p < t.capacity := by
    refine probeList_lt t.capacity (t.hash (some k) klen % t.capacity)
      t.capacity hcap p ?_
    rw [hdecomp]
    simp
  have hdkey : (mapAt t d).key = none := by
    have h2 := (Bool.and_eq_true_iff.mp hdel).2
    simpa using h2
  have hpkey : (mapAt t p).key ≠ none := by
    intro hc
    have h2 := (Bool.and_eq_true_iff.mp hm).2
    rw [hc] at h2
    have h3 : t.compare (some k) klen none (mapAt t p).klen ≠ 0 :=
      hcmp.null_ne_left k klen (mapAt t p).klen
    exact h3 (by simpa using h2)
  have hne : p ≠ d := fun h => hpkey (h ▸ hdkey)
  have hmd : ((mapAt t d).hash == t.hash (some k) klen &&
      t.compare (some k) klen (mapAt t d).key (mapAt t d).klen == 0)
      = false := by
    have h3 : t.compare (some k) klen (mapAt t d).key (mapAt t d).klen ≠ 0 := by
      rw [hdkey]
      exact hcmp.null_ne_left k klen (mapAt t d).klen
    exact Bool.and_eq_false_iff.mpr (Or.inr (beq_eq_false_iff_ne.mpr h3))
  refine ⟨?_, ?_, ?_, relocated_at_d t p d (hlen ▸ hdlt) hne,
    relocated_at_p t p d (hlen ▸ hplt) hne, ?_, ?_, rfl⟩
  · rw [he4_get_eq_go t k klen hcap hklen]
    show ((getGo t (some k) klen (t.hash (some k) klen)
        (probeList t.capacity (t.hash (some k) klen % t.capacity) t.capacity)
        false 0).1,
      some (getGo t (some k) klen (t.hash (some k) klen)
        (probeList t.capacity (t.hash (some k) klen % t.capacity) t.capacity)
        false 0).2.1,
      (getGo t (some k) klen (t.hash (some k) klen)
        (probeList t.capacity (t.hash (some k) klen % t.capacity) t.capacity)
        false 0).2.2) = _
    rw [hdecomp, getGo_clean_pass t (some k) klen (t.hash (some k) klen) l₁
      hl₁ (d :: (l₂ ++ (p :: l₃))) 0,
      getGo_deleted_step t (some k) klen (t.hash (some k) klen) d
        (l₂ ++ (p :: l₃)) 0 hdel hmd,
      getGo_lazy_pass t (some k) klen (t.hash (some k) klen) l₂ hl₂
        (p :: l₃) d,
      getGo_found_lazy t (some k) klen (t.hash (some k) klen) p l₃ d hdel
        hemp hm]
  · rw [he4_find_eq_go t k klen hcap hklen]
    show ((findGo t (some k) klen (t.hash (some k) klen)
        (probeList t.capacity (t.hash (some k) klen % t.capacity) t.capacity)
        false 0).1,
      some (findGo t (some k) klen (t.hash (some k) klen)
        (probeList t.capacity (t.hash (some k) klen % t.capacity) t.capacity)
        false 0).2.1,
      (findGo t (some k) klen (t.hash (some k) klen)
        (probeList t.capacity (t.hash (some k) klen % t.capacity) t.capacity)
        false 0).2.2) = _
    rw [hdecomp, findGo_clean_pass t (some k) klen (t.hash (some k) klen) l₁
      hl₁ (d :: (l₂ ++ (p :: l₃))) 0,
      findGo_deleted_step t (some k) klen (t.hash (some k) klen) d
        (l₂ ++ (p :: l₃)) 0 hdel hmd,
      findGo_lazy_pass t (some k) klen (t.hash (some k) klen) l₂ hl₂
        (p :: l₃) d,
      findGo_found_lazy t (some k) klen (t.hash (some k) klen) p l₃ d hdel
        hemp hm]
  · rw [relocated_at_d t p d (hlen ▸ hdlt) hne]
  · rw [is_deleted]
    rw [relocated_at_p t p d (hlen ▸ hplt) hne]
    rfl
  · rw [is_empty]
    rw [relocated_at_p t p d (hlen ▸ hplt) hne]
    rfl

theorem get_find_lazy_relocation_witness :
    he4_get (some tLazy) (some [5]) 1 =
      ((mapAt tLazy 1).entry, some (relocated tLazy 1 0), []) ∧
    he4_find (some tLazy) (some [5]) 1 =
      (some 0, some (relocated tLazy 1 0), []) :=
  have h := get_find_lazy_relocation tLazy
    ⟨by decide, by decide, by decide, by decide⟩ he4_compare_ok [5] 1
    (by decide) [] 0 [] 1 (List.range' 2 62) (by decide)
    (fun q hq => absurd hq (List.not_mem_nil q)) (by decide)
    (fun q hq => absurd hq (List.not_mem_nil q)) (by decide) (by decide)
  ⟨h.1, h.2.1⟩

/-- Claim C10: unlike `he4_size`, `he4_capacity` and `he4_load`, which handle
a NULL table (returning 0, 0 and 1.0 respectively), `he4_max_touch`
dereferences its argument unconditionally — the model therefore has no
defined result (`none`) for a NULL table, and returns the `max_touch` field
for every non-NULL table. -/
theorem he4_max_touch_null_unchecked :
    he4_max_touch none = none ∧
    (∀ t : HE4, he4_max_touch (some t) = some t.max_touch) ∧
    he4_size none = 0 ∧ he4_capacity none = 0 ∧ he4_load none = 1 :=
  ⟨rfl, fun _ => rfl, rfl, rfl, rfl⟩

/-- Claim C4: a NULL table, NULL key or zero key length makes `he4_insert`,
`he4_force_insert` and `he4_discard` return the failure value `true` with the
table unchanged and no destructor calls; a NULL entry does the same for the
two insertion functions. -/
theorem he4_invalid_args (table : Option HE4) (key : KeyP) (klen : Nat)
    (entry : EntryP) :
    ((key = none ∨ klen = 0 ∨ table = none) →
      he4_insert table key klen entry = (true, table, []) ∧
      he4_force_insert table key klen entry = (true, table, []) ∧
      ∀ fuel, he4_discard fuel table key klen = some (true, table, [])) ∧
    (entry = none →
      he4_insert table key klen entry = (true, table, []) ∧
      he4_force_insert table key klen entry = (true, table, [])) := by
  cases table with
  | none => exact ⟨fun _ => ⟨rfl, rfl, fun _ => rfl⟩, fun _ => ⟨rfl, rfl⟩⟩
  | some t =>
    constructor
    · rintro (rfl | rfl | h)
      · exact ⟨rfl, rfl, fun _ => rfl⟩
      · cases key with
        | none => exact ⟨rfl, rfl, fun _ => rfl⟩
        | some k => exact ⟨rfl, rfl, fun _ => rfl⟩
      · exact absurd h (by simp)
    · rintro rfl
      cases key with
      | none => exact ⟨rfl, rfl⟩
      | some k =>
        by_cases h : klen = 0
        · subst h; exact ⟨rfl, rfl⟩
        · exact ⟨by simp [he4_insert, h], by simp [he4_force_insert, h]⟩

theorem he4_invalid_args_witness :
    he4_insert none (some [1]) 1 (some 2) = (true, none, []) ∧
    he4_force_insert (some tLazy) none 1 (some 2) = (true, some tLazy, []) ∧
    he4_discard 5 (some tLazy) (some [5]) 0 = some (true, some tLazy, []) ∧
    he4_insert (some tLazy) (some [5]) 1 none = (true, some tLazy, []) :=
  ⟨((he4_invalid_args none (some [1]) 1 (some 2)).1 (Or.inr (Or.inr rfl))).1,
   ((he4_invalid_args (some tLazy) none 1 (some 2)).1 (Or.inl rfl)).2.1,
   ((he4_invalid_args (some tLazy) (some [5]) 0 (some 2)).1
     (Or.inr (Or.inl rfl))).2.2 5,
   ((he4_invalid_args (some tLazy) (some [5]) 1 none).2 rfl).1⟩

/-- Claim C3 (code bug): `he4_delete` sets `table->capacity = 0` before its
cleanup loop `for (index = 0; index < table->capacity; ++index)`, so the loop
never runs and no destructor is ever invoked — not even on a table that still
holds an occupied cell (second conjunct: a freshly built table holding key
`[5]` with entry 7 at slot 0 yields an empty destructor-call list). -/
theorem he4_delete_no_destructor_calls :
    (∀ t : HE4, he4_delete (some t) = []) ∧
    ((he4_insert (he4_new 64 hashZ he4_compare) (some [5]) 1 (some 7)).2.1.map
        (fun u => ((mapAt u 0).key, (mapAt u 0).entry, he4_delete (some u))))
      = some (some [5], some 7, []) :=
  ⟨fun _ => rfl, by decide⟩

theorem tRemove_loop_stuck :
    ∀ fuel, he4_remove_loop tRemove (some [9]) 1 0 0 fuel 1 = none := by
  intro fuel
  induction fuel with
  | zero => rfl
  | succ n ih => exact ih

theorem tRemove_loop_stuck0 :
    ∀ fuel, he4_remove_loop tRemove (some [9]) 1 0 0 fuel 0 = none := by
  intro fuel
  cases fuel with
  | zero => rfl
  | succ n => exact tRemove_loop_stuck n

theorem tRemove_discard_stuck :
    ∀ fuel, he4_discard_loop tRemove (some [9]) 1 0 0 fuel 1 = none := by
  intro fuel
  induction fuel with
  | zero => rfl
  | succ n ih => exact ih

theorem tRemove_discard_stuck0 :
    ∀ fuel, he4_discard_loop tRemove (some [9]) 1 0 0 fuel 0 = none := by
  intro fuel
  cases fuel with
  | zero => rfl
  | succ n => exact tRemove_discard_stuck n

/-- Claim C1 (code bug): the `continue` in the probe loops of `he4_remove`
and `he4_discard` jumps to the `while (start != index)` test without the
increment at the bottom of the body, so a Deleted slot is not skipped.  On
`tRemove` (tombstone at slot 1, key `[9]` at slot 2) the loop re-examines
slot 1 forever: no amount of fuel finishes it.  On `tRemove2` (tombstone at
the start slot itself) the test `start != index` fails immediately and the
search stops with NotFound even though key `[9]` is occupied at slot 1. -/
theorem remove_discard_tombstone_nontermination :
    (∀ fuel, he4_remove fuel (some tRemove) (some [9]) 1 = none) ∧
    (∀ fuel, he4_discard fuel (some tRemove) (some [9]) 1 = none) ∧
    is_deleted tRemove 1 = true ∧ (mapAt tRemove 2).key = some [9] ∧
    he4_remove 64 (some tRemove2) (some [9]) 1 = some (none, some tRemove2, []) ∧
    is_deleted tRemove2 0 = true ∧ (mapAt tRemove2 1).key = some [9] := by
  refine ⟨?_, ?_, by decide, by decide, rfl, by decide, by decide⟩
  · intro fuel
    show (he4_remove_loop tRemove (some [9]) 1 0 0 fuel 0).map
      (fun r => (r.1, some r.2.1, r.2.2)) = none
    rw [tRemove_loop_stuck0 fuel]
    rfl
  · intro fuel
    show (he4_discard_loop tRemove (some [9]) 1 0 0 fuel 0).map
      (fun r => (r.1, some r.2.1, r.2.2)) = none
    rw [tRemove_discard_stuck0 fuel]
    rfl

set_option maxRecDepth 10000 in
/-- Claim C9 (code bug): after inserting one key into a fresh capacity-64
table and rehashing to 128, the new table reports `free = 64` even though it
has 127 open (non-occupied) cells and a single occupied cell, because
`he4_rehash` pushes every old cell — including the 63 empty ones — through
`insert_cell`, which decrements `free` each time; `he4_size` consequently
reports 64 instead of 1. -/
theorem rehash_breaks_free_count :
    ((he4_rehash (he4_insert (he4_new 64 hashZ he4_compare) (some [5]) 1
        (some 7)).2.1 128).1.map
      (fun u => (u.free, openCount u,
        (u.maps.filter (fun c => c.key != none)).length, he4_size (some u))))
      = some (64, 127, 1, 64) := by decide

/-- Claim C6 counterexample: on `tLazy` (tombstone at slot 0, key `[5]` with
entry 7 at slot 1), `he4_get` and `he4_find` match at slot 1 after passing
the deleted slot 0 and relocate the match into slot 0 — but the original
matched position 1 is left Deleted (`klen = 1`, key absent), not Empty as the
claim states. -/
theorem get_lazy_marks_deleted_counterexample :
    (he4_get (some tLazy) (some [5]) 1).1 = some 7 ∧
    is_deleted tLazy 0 = true ∧
    ((he4_get (some tLazy) (some [5]) 1).2.1.map
      (fun u => (is_empty u 1, is_deleted u 1, mapAt u 0, mapAt u 1,
        u.max_touch)))
      = some (false, true,
          { touch := 4, hash := 0, entry := some 7, key := some [5], klen := 1 },
          { touch := 0, hash := 0, entry := none, key := none, klen := 1 }, 4) ∧
    (he4_find (some tLazy) (some [5]) 1).1 = some 0 ∧
    ((he4_find (some tLazy) (some [5]) 1).2.1.map
      (fun u => (is_empty u 1, is_deleted u 1))) = some (false, true) := by
  decide

/-- Claim C7: when the whole probe cycle is full (no open slot and no cell
matching the key anywhere on the path) and the key is valid,
`he4_force_insert` succeeds anyway.  It evicts exactly the slot with the
smallest touch value visited during the probe — ties broken in favour of the
first such slot encountered, as every earlier probe position has a strictly
larger touch — invokes the key destructor and the entry destructor on the
victim's key and entry, overwrites that slot with the new key, entry, cached
hash, and the fresh touch value, and returns the indicator `true` that
distinguishes this eviction case from a non-evicting insertion. -/
theorem force_insert_evicts_lru (t : HE4) (hcap : 0 < t.capacity)
    (k : Key) (klen e : Nat) (hklen : klen ≠ 0)
    (hfull : ∀ p ∈ probeList t.capacity
        (t.hash (some k) klen % t.capacity) t.capacity,
      is_open t p = false ∧
        ((mapAt t p).hash == t.hash (some k) klen &&
          t.compare (mapAt t p).key (mapAt t p).klen (some k) klen == 0)
          = false)
    (htch : ∀ p ∈ probeList t.capacity
        (t.hash (some k) klen % t.capacity) t.capacity,
      (mapAt t p).touch < SIZE_MAX) :
    ∃ v l₁ l₂,
      probeList t.capacity (t.hash (some k) klen % t.capacity) t.capacity
        = l₁ ++ v :: l₂ ∧
      (∀ q ∈ probeList t.capacity (t.hash (some k) klen % t.capacity)
          t.capacity, (mapAt t v).touch ≤ (mapAt t q).touch) ∧
      (∀ q ∈ l₁, (mapAt t v).touch < (mapAt t q).touch) ∧
      he4_force_insert (some t) (some k) klen (some e) =
        (true,
         some { capacity := t.capacity, compare := t.compare, free := t.free,
                hash := t.hash, max_touch := t.max_touch + 1,
                maps := t.maps.set v
                  { touch := t.max_touch + 1, hash := t.hash (some k) klen,
                    entry := some e, key := some k, klen := klen } },
         [DCall.dkey (mapAt t v).key, DCall.dentry (mapAt t v).entry]) := by
  have hstart : t.hash (some k) klen % t.capacity < t.capacity :=
    Nat.mod_lt _ hcap
  obtain ⟨h1, h2, h3, h4⟩ := lruFold_spec t
    (probeList t.capacity (t.hash (some k) klen % t.capacity) t.capacity)
    SIZE_MAX (t.hash (some k) klen % t.capacity)
  have hmem : t.hash (some k) klen % t.capacity ∈
      probeList t.capacity (t.hash (some k) klen % t.capacity) t.capacity :=
    probeList_mem _ _ _ hstart hstart
  have hlt : (lruFold t (probeList t.capacity
      (t.hash (some k) klen % t.capacity) t.capacity)
      (SIZE_MAX, t.hash (some k) klen % t.capacity)).1 < SIZE_MAX :=
    lt_of_le_of_lt (h2 _ hmem) (htch _ hmem)
  obtain ⟨l₁, l₂, hdec, htv, hgt⟩ := h3 hlt
  refine ⟨_, l₁, l₂, hdec, ?_, ?_, ?_⟩
  · intro q hq; rw [htv]; exact h2 q hq
  · intro q hq; rw [htv]; exact hgt q hq
  · have h5 := insert_cell_eq_go { t with max_touch := t.max_touch + 1 }
      (some k) klen (some e) true (t.max_touch + 1) hcap
    have h6 := insertGo_all_skip { t with max_touch := t.max_touch + 1 }
      (some k) klen (some e) true (t.max_touch + 1) (t.hash (some k) klen)
      (probeList t.capacity (t.hash (some k) klen % t.capacity) t.capacity)
      (fun p hp => hfull p hp) SIZE_MAX (t.hash (some k) klen % t.capacity)
    have hchain : insert_cell { t with max_touch := t.max_touch + 1 } (some k)
        klen (some e) true (t.max_touch + 1)
        = insert_cell_post { t with max_touch := t.max_touch + 1 } (some k)
            klen (some e) true (t.max_touch + 1) (t.hash (some k) klen)
            (lruFold t (probeList t.capacity
                (t.hash (some k) klen % t.capacity) t.capacity)
              (SIZE_MAX, t.hash (some k) klen % t.capacity)).2 :=
      h5.trans h6
    simp only [he4_force_insert]
    rw [if_neg (Option.some_ne_none k), if_neg hklen,
      if_neg (Option.some_ne_none e)]
    exact congrArg
      (fun r : Bool × HE4 × List DCall => (r.1, some r.2.1, r.2.2)) hchain

/-- Witness for C7: on the full table `tFull` (all keys hash to 0), forcing
in the fresh key `[99]` evicts the least-recently-used slot. -/
theorem force_insert_evicts_lru_witness :
    ∃ v l₁ l₂,
      probeList tFull.capacity (tFull.hash (some [99]) 1 % tFull.capacity)
        tFull.capacity = l₁ ++ v :: l₂ ∧
      (∀ q ∈ probeList tFull.capacity
          (tFull.hash (some [99]) 1 % tFull.capacity) tFull.capacity,
        (mapAt tFull v).touch ≤ (mapAt tFull q).touch) ∧
      (∀ q ∈ l₁, (mapAt tFull v).touch < (mapAt tFull q).touch) ∧
      he4_force_insert (some tFull) (some [99]) 1 (some 5) =
        (true,
         some { capacity := tFull.capacity, compare := tFull.compare,
                free := tFull.free, hash := tFull.hash,
                max_touch := tFull.max_touch + 1,
                maps := tFull.maps.set v
                  { touch := tFull.max_touch + 1,
                    hash := tFull.hash (some [99]) 1,
                    entry := some 5, key := some [99], klen := 1 } },
         [DCall.dkey (mapAt tFull v).key,
          DCall.dentry (mapAt tFull v).entry]) :=
  force_insert_evicts_lru tFull (by decide) [99] 1 5 (by decide) (by decide)
    (by decide)

theorem openCount_blank (t : HE4)
    (hblank : t.maps = List.replicate t.capacity blank_cell) :
    openCount t = t.capacity := by
  rw [openCount_eq_countP, hblank, List.countP_replicate]
  rfl

theorem is_open_blank (t : HE4)
    (hblank : t.maps = List.replicate t.capacity blank_cell)
    (p : Nat) (hp : p < t.capacity) : is_open t p = true := by
  rw [is_open, mapAt, hblank, List.getD_eq_getElem?_getD,
    List.getElem?_replicate, if_pos hp]
  rfl

theorem is_open_false_of_openCount_zero (u : HE4) (h : openCount u = 0)
    (p : Nat) (hp : p < u.maps.length) : is_open u p = false := by
  cases hop : is_open u p with
  | false => rfl
  | true =>
    exfalso
    have hmem : mapAt u p ∈ u.maps.filter (fun c => c.key == none) :=
      List.mem_filter.mpr ⟨mapAt_mem u p hp, hop⟩
    simp only [openCount] at h
    rw [List.length_eq_zero.mp h] at hmem
    exact absurd hmem (List.not_mem_nil _)

theorem fillSlot_openCount (u : HE4) (x : Nat) (k : Key) (klen e : Nat)
    (hx : x < u.maps.length) (hop : is_open u x = true) :
    openCount (fillSlot u x k klen e) + 1 = openCount u := by
  have hc := openCount_setMap u x
    { touch := u.max_touch + 1, hash := u.hash (some k) klen,
      entry := some e, key := some k, klen := klen } hx
  have h1 : ((mapAt u x).key == none) = true := hop
  rw [h1] at hc
  simp at hc
  exact hc

/-- With at least one open slot on the (full-cycle) probe path and no stored
cell matching the key, a plain insert lands in the first open slot of the
path and reports success. -/
theorem he4_insert_fills_open (u : HE4) (hcap : 0 < u.capacity)
    (hlen : u.maps.length = u.capacity)
    (k : Key) (klen e : Nat) (hklen : klen ≠ 0)
    (hopen : ∃ p, p < u.capacity ∧ is_open u p = true)
    (hnomatch : ∀ p, p < u.capacity → is_open u p = false →
      (u.compare (mapAt u p).key (mapAt u p).klen (some k) klen == 0)
        = false) :
    ∃ x, x < u.capacity ∧ is_open u x = true ∧
      he4_insert (some u) (some k) klen (some e) =
        (false, some (fillSlot u x k klen e), []) := by
  have hstart : u.hash (some k) klen % u.capacity < u.capacity :=
    Nat.mod_lt _ hcap
  obtain ⟨p₀, hp₀, hop₀⟩ := hopen
  have hmem0 : p₀ ∈ probeList u.capacity
      (u.hash (some k) klen % u.capacity) u.capacity :=
    probeList_mem _ _ _ hstart hp₀
  obtain ⟨l₁, x, l₂, heq, hl₁, hx⟩ :=
    exists_first_true (fun p => is_open u p)
      (probeList u.capacity (u.hash (some k) klen % u.capacity) u.capacity)
      ⟨p₀, hmem0, hop₀⟩
  have hxmem : x ∈ probeList u.capacity
      (u.hash (some k) klen % u.capacity) u.capacity := by
    rw [heq]
    exact List.mem_append_right _ (List.mem_cons_self x l₂)
  have hxcap : x < u.capacity :=
    probeList_lt u.capacity (u.hash (some k) klen % u.capacity) u.capacity
      hcap x hxmem
  have hcl : ∀ p ∈ l₁, is_open u p = false ∧
      ((mapAt u p).hash == u.hash (some k) klen &&
        u.compare (mapAt u p).key (mapAt u p).klen (some k) klen == 0)
        = false := by
    intro p hp
    have hpmem : p ∈ probeList u.capacity
        (u.hash (some k) klen % u.capacity) u.capacity := by
      rw [heq]
      exact List.mem_append_left _ hp
    have hpcap : p < u.capacity :=
      probeList_lt u.capacity (u.hash (some k) klen % u.capacity)
        u.capacity hcap p hpmem
    have hno := hl₁ p hp
    exact ⟨hno, Bool.and_eq_false_iff.mpr (Or.inr (hnomatch p hpcap hno))⟩
  have h5 := insert_cell_eq_go u (some k) klen (some e) false
    (u.max_touch + 1) hcap
  have h6 := insertGo_skip u (some k) klen (some e) false (u.max_touch + 1)
    (u.hash (some k) klen) l₁ hcl (x :: l₂) SIZE_MAX
    (u.hash (some k) klen % u.capacity)
  have h7 := insertGo_open u (some k) klen (some e) false (u.max_touch + 1)
    (u.hash (some k) klen) x l₂
    (lruFold u l₁ (SIZE_MAX, u.hash (some k) klen % u.capacity)).1
    (lruFold u l₁ (SIZE_MAX, u.hash (some k) klen % u.capacity)).2 hx
  have hchain : insert_cell u (some k) klen (some e) false (u.max_touch + 1)
      = (false,
         { capacity := u.capacity, compare := u.compare, free := u.free - 1,
           hash := u.hash, max_touch := u.max_touch,
           maps := u.maps.set x
             { touch := u.max_touch + 1, hash := u.hash (some k) klen,
               entry := some e, key := some k, klen := klen } }, []) := by
    rw [h5, heq, h6, h7]
  refine ⟨x, hxcap, hx, ?_⟩
  simp only [he4_insert]
  rw [if_neg (Option.some_ne_none k), if_neg hklen,
    if_neg (Option.some_ne_none e), hchain]
  rfl

/-- With every slot of the (full-cycle) probe path non-open and
non-matching, a plain insert fails and leaves the table untouched. -/
theorem he4_insert_table_full (u : HE4) (hcap : 0 < u.capacity)
    (k : Key) (klen e : Nat) (hklen : klen ≠ 0)
    (hfull : ∀ p ∈ probeList u.capacity
        (u.hash (some k) klen % u.capacity) u.capacity,
      is_open u p = false ∧
        ((mapAt u p).hash == u.hash (some k) klen &&
          u.compare (mapAt u p).key (mapAt u p).klen (some k) klen == 0)
          = false) :
    he4_insert (some u) (some k) klen (some e) = (true, some u, []) := by
  have h5 := insert_cell_eq_go u (some k) klen (some e) false
    (u.max_touch + 1) hcap
  have h6 := insertGo_all_skip u (some k) klen (some e) false
    (u.max_touch + 1) (u.hash (some k) klen)
    (probeList u.capacity (u.hash (some k) klen % u.capacity) u.capacity)
    hfull SIZE_MAX (u.hash (some k) klen % u.capacity)
  have hchain := h5.trans h6
  simp only [he4_insert]
  rw [if_neg (Option.some_ne_none k), if_neg hklen,
    if_neg (Option.some_ne_none e), hchain]
  rfl

/-- Invariant-carrying induction for filling a table: while there are at
least as many open slots as keys left, every plain insert of the (pairwise
non-matching, fresh) keys succeeds, each one fills exactly one open slot,
and every non-open cell of the result stores one of the previously-known or
newly-inserted key/length pairs. -/
theorem insertAll_fills (N : Nat) (cmp : KeyP → Nat → KeyP → Nat → Int)
    (hsh : KeyP → Nat → Nat) (hN : 0 < N) :
    ∀ (rest : List (Key × Nat × Nat)) (S : List (Key × Nat)) (u : HE4),
      u.capacity = N → u.compare = cmp → u.hash = hsh →
      u.maps.length = N → u.free = openCount u →
      rest.length ≤ openCount u →
      (∀ a ∈ rest, a.2.1 ≠ 0) →
      List.Pairwise (fun x y => cmp (some x.1) x.2.1 (some y.1) y.2.1 ≠ 0)
        rest →
      (∀ p, p < N → is_open u p = false →
        ∃ s ∈ S, (mapAt u p).key = some s.1 ∧ (mapAt u p).klen = s.2) →
      (∀ b ∈ rest, ∀ s ∈ S, cmp (some s.1) s.2 (some b.1) b.2.1 ≠ 0) →
      ∃ T, insertAll (some u) rest = (some T, true) ∧
        T.capacity = N ∧ T.compare = cmp ∧ T.hash = hsh ∧
        T.maps.length = N ∧ T.free = openCount T ∧
        openCount T + rest.length = openCount u ∧
        (∀ p, p < N → is_open T p = false →
          ∃ s ∈ S ++ rest.map (fun a => (a.1, a.2.1)),
            (mapAt T p).key = some s.1 ∧ (mapAt T p).klen = s.2) := by
  intro rest
  induction rest with
  | nil =>
    intro S u hucap hucmp huhash hulen hufree _ _ _ hstored _
    exact ⟨u, rfl, hucap, hucmp, huhash, hulen, hufree, by simp,
      by simpa using hstored⟩
  | cons a rest ih =>
    intro S u hucap hucmp huhash hulen hufree hcount hklen hpw hstored hS
    simp only [List.length_cons] at hcount
    have hcap : 0 < u.capacity := by omega
    have hopc : 0 < openCount u := by omega
    have hopen : ∃ p, p < u.capacity ∧ is_open u p = true := by
      have hpos : 0 < u.maps.countP (fun c => c.key == none) := by
        rw [← openCount_eq_countP]
        exact hopc
      obtain ⟨c, hcmem, hckey⟩ := List.countP_pos.mp hpos
      obtain ⟨i, hi, hci⟩ := List.mem_iff_getElem.mp hcmem
      refine ⟨i, by omega, ?_⟩
      rw [is_open, mapAt_eq_getElem u i hi, hci]
      exact hckey
    have hnomatch : ∀ p, p < u.capacity → is_open u p = false →
        (u.compare (mapAt u p).key (mapAt u p).klen (some a.1) a.2.1 == 0)
          = false := by
      intro p hp hop
      obtain ⟨s, hsmem, hskey, hsklen⟩ := hstored p (by omega) hop
      rw [hskey, hsklen, hucmp]
      exact beq_eq_false_iff_ne.mpr
        (hS a (List.mem_cons_self a rest) s hsmem)
    obtain ⟨x, hxcap, hxopen, hins⟩ := he4_insert_fills_open u hcap
      (by omega) a.1 a.2.1 a.2.2 (hklen a (List.mem_cons_self a rest))
      hopen hnomatch
    have hxlen : x < u.maps.length := by omega
    have hoc1 := fillSlot_openCount u x a.1 a.2.1 a.2.2 hxlen hxopen
    have hmap1 : ∀ q, mapAt (fillSlot u x a.1 a.2.1 a.2.2) q =
        mapAt (setMap u x
          { touch := u.max_touch + 1, hash := u.hash (some a.1) a.2.1,
            entry := some a.2.2, key := some a.1, klen := a.2.1 }) q :=
      fun _ => rfl
    have hcellx : mapAt (fillSlot u x a.1 a.2.1 a.2.2) x =
        { touch := u.max_touch + 1, hash := u.hash (some a.1) a.2.1,
          entry := some a.2.2, key := some a.1, klen := a.2.1 } := by
      rw [hmap1 x]
      exact mapAt_setMap_self u x _ hxlen
    obtain ⟨T, hTall, hTcap, hTcmp, hThash, hTlen, hTfree, hTopen,
        hTstored⟩ :=
      ih (S ++ [(a.1, a.2.1)]) (fillSlot u x a.1 a.2.1 a.2.2)
        hucap hucmp huhash
        (by simp [fillSlot, hulen])
        (by
          show u.free - 1 = openCount (fillSlot u x a.1 a.2.1 a.2.2)
          omega)
        (by omega)
        (fun b hb => hklen b (List.mem_cons_of_mem a hb))
        ((List.pairwise_cons.mp hpw).2)
        (by
          intro p hp hop
          by_cases hpx : p = x
          · exact ⟨(a.1, a.2.1), by simp, by simp [hpx, hcellx],
              by simp [hpx, hcellx]⟩
          · have hmapne : mapAt (fillSlot u x a.1 a.2.1 a.2.2) p
                = mapAt u p := by
              rw [hmap1 p]
              exact mapAt_setMap_ne u x p _ (fun h => hpx h.symm)
            have hop' : is_open u p = false := by
              rw [is_open, ← hmapne]
              exact hop
            obtain ⟨s, hsmem, hskey, hsklen⟩ := hstored p hp hop'
            exact ⟨s, List.mem_append_left _ hsmem,
              by rw [hmapne]; exact hskey,
              by rw [hmapne]; exact hsklen⟩)
        (by
          intro b hb s hsmem
          rcases List.mem_append.mp hsmem with hsS | hsa
          · exact hS b (List.mem_cons_of_mem a hb) s hsS
          · have hsa' : s = (a.1, a.2.1) := by simpa using hsa
            rw [hsa']
            exact (List.pairwise_cons.mp hpw).1 b hb)
    refine ⟨T, ?_, hTcap, hTcmp, hThash, hTlen, hTfree, ?_, ?_⟩
    · simp [insertAll, hins, hTall]
    · simp only [List.length_cons]
      omega
    · intro p hp hop
      obtain ⟨s, hsmem, hskey, hsklen⟩ := hTstored p hp hop
      refine ⟨s, ?_, hskey, hsklen⟩
      simpa using hsmem

/-- Claim C5: a table of capacity `N` starting blank absorbs `N` distinct
valid keys — every one of the `N` plain inserts succeeds — and then a
subsequent plain insert of an `(N+1)`-th distinct key fails (the C return
value `true`, rendering `HE4_TABLE_FULL`/TableFull), performs no mutation
(the returned table is the unchanged input and no destructor is called),
and `he4_size` still reports `N`. -/
theorem fill_then_overflow (t : HE4) (hcap : 0 < t.capacity)
    (hblank : t.maps = List.replicate t.capacity blank_cell)
    (hfree : t.free = t.capacity)
    (ks : List (Key × Nat × Nat)) (hlen : ks.length = t.capacity)
    (hklen : ∀ a ∈ ks, a.2.1 ≠ 0)
    (hpw : List.Pairwise
      (fun x y => t.compare (some x.1) x.2.1 (some y.1) y.2.1 ≠ 0) ks)
    (knew : Key) (klennew enew : Nat) (hknew : klennew ≠ 0)
    (hnewdiff : ∀ a ∈ ks,
      t.compare (some a.1) a.2.1 (some knew) klennew ≠ 0) :
    ∃ T, insertAll (some t) ks = (some T, true) ∧
      he4_size (some T) = t.capacity ∧
      he4_insert (some T) (some knew) klennew (some enew)
        = (true, some T, []) := by
  have hoc : openCount t = t.capacity := openCount_blank t hblank
  have hmlen : t.maps.length = t.capacity := by
    rw [hblank]
    simp
  obtain ⟨T, hall, hTcap, hTcmp, hThash, hTlen, hTfree, hTopen, hTstored⟩ :=
    insertAll_fills t.capacity t.compare t.hash hcap ks [] t rfl rfl rfl
      hmlen (by omega) (by omega) hklen hpw
      (fun p hp hop => by
        rw [is_open_blank t hblank p hp] at hop
        simp at hop)
      (fun _ _ s hs => absurd hs (List.not_mem_nil s))
  have hTopen0 : openCount T = 0 := by omega
  refine ⟨T, hall, ?_, ?_⟩
  · show T.capacity - T.free = t.capacity
    omega
  · apply he4_insert_table_full T (by omega) knew klennew enew hknew
    intro p hpmem
    have hpcap : p < T.capacity :=
      probeList_lt T.capacity (T.hash (some knew) klennew % T.capacity)
        T.capacity (by omega) p hpmem
    have hplen : p < T.maps.length := by omega
    have hopenp : is_open T p = false :=
      is_open_false_of_openCount_zero T hTopen0 p hplen
    refine ⟨hopenp, ?_⟩
    obtain ⟨s, hsmem, hskey, hsklen⟩ := hTstored p (by omega) hopenp
    have hsmem' : s ∈ ks.map (fun a => (a.1, a.2.1)) := by simpa using hsmem
    obtain ⟨b, hb, hfb⟩ := List.mem_map.mp hsmem'
    refine Bool.and_eq_false_iff.mpr (Or.inr ?_)
    rw [hskey, hsklen, hTcmp, ← hfb]
    exact beq_eq_false_iff_ne.mpr (hnewdiff b hb)

/-- Witness for C5: filling the blank capacity-64 table with the 64 keys of
`ks64` succeeds throughout; a 65th distinct key is then rejected without
mutation and the size stays 64. -/
theorem fill_then_overflow_witness :
    ∃ T, insertAll (some tBlank) ks64 = (some T, true) ∧
      he4_size (some T) = tBlank.capacity ∧
      he4_insert (some T) (some [99]) 1 (some 5) = (true, some T, []) :=
  fill_then_overflow tBlank (by decide) rfl rfl ks64 rfl (by decide)
    (by decide) [99] 1 5 (by decide) (by decide)

theorem rehashFold_append (acc : HE4 × HE4 × List DCall)
    (l1 l2 : List Nat) :
    rehashFold acc (l1 ++ l2) = rehashFold (rehashFold acc l1) l2 := by
  simp [rehashFold, List.foldl_append]

theorem mapAt_nbTable (t : HE4) (C q : Nat) (hq : q < C) :
    mapAt (nbTable t C) q = blank_cell := by
  show (List.replicate C blank_cell).getD q blank_cell = blank_cell
  rw [List.getD_eq_getElem?_getD, List.getElem?_replicate, if_pos hq]
  rfl

theorem exists_open_slot (u : HE4) (hlen : u.maps.length = u.capacity)
    (h : 0 < openCount u) : ∃ p, p < u.capacity ∧ is_open u p = true := by
  have hpos : 0 < u.maps.countP (fun c => c.key == none) := by
    rw [← openCount_eq_countP]
    exact h
  obtain ⟨c, hcmem, hckey⟩ := List.countP_pos.mp hpos
  obtain ⟨p, hp, hcp⟩ := List.mem_iff_getElem.mp hcmem
  refine ⟨p, by omega, ?_⟩
  rw [is_open, mapAt_eq_getElem u p hp, hcp]
  exact hckey

theorem openCount_set_ge (u : HE4) (x : Nat) (c : he4_map_t)
    (hx : x < u.maps.length) (hop : is_open u x = true) :
    openCount u ≤ openCount (setMap u x c) + 1 := by
  have hoc := openCount_setMap u x c hx
  have h1 : ((mapAt u x).key == none) = true := hop
  rw [h1] at hoc
  by_cases h2 : (c.key == none) = true
  · rw [h2] at hoc
    simp at hoc
    omega
  · rw [Bool.not_eq_true] at h2
    rw [h2] at hoc
    simp at hoc
    omega

/-- With at least one open slot and no stored cell matching the key, a raw
`insert_cell` (no overwrite) lands in the first open slot of the probe path
and writes the moved cell there. -/
theorem insert_cell_fills_open (u : HE4) (hcap : 0 < u.capacity)
    (key : KeyP) (klen : Nat) (entry : EntryP) (tch : Nat)
    (hopen : ∃ p, p < u.capacity ∧ is_open u p = true)
    (hnomatch : ∀ p, p < u.capacity → is_open u p = false →
      (u.compare (mapAt u p).key (mapAt u p).klen key klen == 0) = false) :
    ∃ l₁ x l₂,
      probeList u.capacity (u.hash key klen % u.capacity) u.capacity
        = l₁ ++ x :: l₂ ∧
      (∀ r ∈ l₁, is_open u r = false) ∧
      is_open u x = true ∧
      insert_cell u key klen entry false tch =
        (false,
         { capacity := u.capacity, compare := u.compare, free := u.free - 1,
           hash := u.hash, max_touch := u.max_touch,
           maps := u.maps.set x
             { touch := tch, hash := u.hash key klen, entry := entry,
               key := key, klen := klen } }, []) := by
  have hstart : u.hash key klen % u.capacity < u.capacity :=
    Nat.mod_lt _ hcap
  obtain ⟨p₀, hp₀, hop₀⟩ := hopen
  have hmem0 : p₀ ∈ probeList u.capacity (u.hash key klen % u.capacity)
      u.capacity := probeList_mem _ _ _ hstart hp₀
  obtain ⟨l₁, x, l₂, heq, hl₁, hx⟩ :=
    exists_first_true (fun p => is_open u p)
      (probeList u.capacity (u.hash key klen % u.capacity) u.capacity)
      ⟨p₀, hmem0, hop₀⟩
  have hcl : ∀ p ∈ l₁, is_open u p = false ∧
      ((mapAt u p).hash == u.hash key klen &&
        u.compare (mapAt u p).key (mapAt u p).klen key klen == 0)
        = false := by
    intro p hp
    have hpmem : p ∈ probeList u.capacity (u.hash key klen % u.capacity)
        u.capacity := by
      rw [heq]
      exact List.mem_append_left _ hp
    have hpcap : p < u.capacity :=
      probeList_lt u.capacity (u.hash key klen % u.capacity) u.capacity
        hcap p hpmem
    exact ⟨hl₁ p hp,
      Bool.and_eq_false_iff.mpr (Or.inr (hnomatch p hpcap (hl₁ p hp)))⟩
  refine ⟨l₁, x, l₂, heq, hl₁, hx, ?_⟩
  rw [insert_cell_eq_go u key klen entry false tch hcap, heq,
    insertGo_skip u key klen entry false tch (u.hash key klen) l₁ hcl
      (x :: l₂) SIZE_MAX (u.hash key klen % u.capacity),
    insertGo_open u key klen entry false tch (u.hash key klen) x l₂
      (lruFold u l₁ (SIZE_MAX, u.hash key klen % u.capacity)).1
      (lruFold u l₁ (SIZE_MAX, u.hash key klen % u.capacity)).2 hx]

/-- Invariant of the rehash fold: after pushing the first `i` old cells of
`t` through `insert_cell` into the blank capacity-`C` table, `RehashInv`
holds of the new table and the untreated suffix of the old table is
untouched. -/
theorem rehash_fold_inv (t : HE4) (hcmp : CompareOk t.compare)
    (C : Nat) (hCgt : t.capacity < C) (hC0 : 0 < C)
    (hdist : ∀ j1, j1 < t.capacity → ∀ j2, j2 < t.capacity → j1 ≠ j2 →
      (mapAt t j1).key ≠ none → (mapAt t j2).key ≠ none →
      t.compare (mapAt t j1).key (mapAt t j1).klen
        (mapAt t j2).key (mapAt t j2).klen ≠ 0) :
    ∀ i, i ≤ t.capacity →
      ∃ u old dc,
        rehashFold (nbTable t C, t, []) (List.range i) = (u, old, dc) ∧
        RehashInv t C i u ∧
        (∀ j, i ≤ j → mapAt old j = mapAt t j) := by
  intro i
  induction i with
  | zero =>
    intro _
    refine ⟨nbTable t C, t, [], rfl, ?_, fun j _ => rfl⟩
    have hoc : openCount (nbTable t C) = C := openCount_blank (nbTable t C) rfl
    refine ⟨rfl, rfl, rfl, by simp [nbTable], by omega, ?_, ?_⟩
    · intro q hq hkey
      rw [mapAt_nbTable t C q hq] at hkey
      exact absurd rfl hkey
    · intro j hj
      exact absurd hj (Nat.not_lt_zero j)
  | succ i ih =>
    intro hi1
    have hi : i ≤ t.capacity := by omega
    obtain ⟨u, old, dc, heq, inv, hold⟩ := ih hi
    have hc : mapAt old i = mapAt t i := hold i (le_refl i)
    have hcapu := inv.cap_eq
    have hlenC := inv.len_eq
    have hucap : 0 < u.capacity := by omega
    have hlenu : u.maps.length = u.capacity := by omega
    have hopc : 0 < openCount u := by
      have := inv.open_ge
      omega
    have hopen := exists_open_slot u hlenu hopc
    have hnomatch : ∀ p, p < u.capacity → is_open u p = false →
        (u.compare (mapAt u p).key (mapAt u p).klen (mapAt t i).key
          (mapAt t i).klen == 0) = false := by
      intro p hp hop
      have hpC : p < C := by omega
      have hkeyne : (mapAt u p).key ≠ none := by
        rw [is_open] at hop
        exact beq_eq_false_iff_ne.mp hop
      obtain ⟨j, hjlt, hjkey, hjcell⟩ := inv.cells p hpC hkeyne
      rw [inv.cmp_eq, hjcell]
      by_cases hki : (mapAt t i).key = none
      · rw [hki]
        cases hkj : (mapAt t j).key with
        | none => exact absurd hkj hjkey
        | some kj =>
          simp only [movedCell]
          rw [hkj]
          exact beq_eq_false_iff_ne.mpr
            (hcmp.null_ne_left kj (mapAt t j).klen (mapAt t i).klen)
      · simp only [movedCell]
        exact beq_eq_false_iff_ne.mpr
          (hdist j (by omega) i (by omega) (Nat.ne_of_lt hjlt) hjkey hki)
    obtain ⟨l₁, x, l₂, hdecomp, hl₁, hxopen, hinseq⟩ :=
      insert_cell_fills_open u hucap (mapAt t i).key (mapAt t i).klen
        (mapAt t i).entry (mapAt t i).touch hopen hnomatch
    have hxmem : x ∈ probeList u.capacity
        (u.hash (mapAt t i).key (mapAt t i).klen % u.capacity)
        u.capacity := by
      rw [hdecomp]
      exact List.mem_append_right _ (List.mem_cons_self x l₂)
    have hxcap : x < u.capacity :=
      probeList_lt u.capacity
        (u.hash (mapAt t i).key (mapAt t i).klen % u.capacity) u.capacity
        hucap x hxmem
    have hxlen : x < u.maps.length := by omega
    rw [inv.cap_eq, inv.hash_eq] at hdecomp
    set cNew : he4_map_t :=
      { touch := (mapAt t i).touch,
        hash := u.hash (mapAt t i).key (mapAt t i).klen,
        entry := (mapAt t i).entry, key := (mapAt t i).key,
        klen := (mapAt t i).klen } with hcNew
    set uNew : HE4 :=
      { capacity := u.capacity, compare := u.compare, free := u.free - 1,
        hash := u.hash, max_touch := u.max_touch,
        maps := u.maps.set x cNew } with huNew
    have hAt : ∀ r, mapAt uNew r = mapAt (setMap u x cNew) r := fun _ => rfl
    have hAtx : mapAt uNew x = movedCell t.hash (mapAt t i) := by
      rw [hAt x, mapAt_setMap_self u x cNew hxlen, hcNew]
      simp only [movedCell, inv.hash_eq]
    have hAtne : ∀ r, r ≠ x → mapAt uNew r = mapAt u r := by
      intro r hr
      rw [hAt r]
      exact mapAt_setMap_ne u x r cNew (fun h => hr h.symm)
    have hne_of_closed : ∀ r, is_open u r = false → r ≠ x := by
      intro r hr h
      rw [h, hxopen] at hr
      exact absurd hr (by decide)
    have hclosed_of_moved : ∀ r j2, (mapAt t j2).key ≠ none →
        mapAt u r = movedCell t.hash (mapAt t j2) →
        is_open u r = false := by
      intro r j2 hk2 hcell
      rw [is_open, hcell]
      exact beq_eq_false_iff_ne.mpr hk2
    refine ⟨uNew, setMap old i blank_cell, dc ++ [], ?_, ?_, ?_⟩
    · rw [List.range_succ, rehashFold_append, heq]
      show ((insert_cell u (mapAt old i).key (mapAt old i).klen
          (mapAt old i).entry false (mapAt old i).touch).2.1,
        setMap old i blank_cell,
        dc ++ (insert_cell u (mapAt old i).key (mapAt old i).klen
          (mapAt old i).entry false (mapAt old i).touch).2.2) = _
      rw [hc, hinseq]
    · refine ⟨inv.cap_eq, inv.cmp_eq, inv.hash_eq, ?_, ?_, ?_, ?_⟩
      · show (u.maps.set x cNew).length = C
        simp [hlenC]
      · have hge := openCount_set_ge u x cNew hxlen hxopen
        have hoeq : openCount uNew = openCount (setMap u x cNew) := rfl
        rw [hoeq]
        have := inv.open_ge
        omega
      · intro q hq hkeyq
        by_cases hqx : q = x
        · refine ⟨i, Nat.lt_succ_self i, ?_, ?_⟩
          · rw [hqx, hAtx] at hkeyq
            exact hkeyq
          · rw [hqx]
            exact hAtx
        · obtain ⟨j, hjlt, hjkey, hjcell⟩ := inv.cells q hq
            (by rw [hAtne q hqx] at hkeyq; exact hkeyq)
          exact ⟨j, Nat.lt_succ_of_lt hjlt, hjkey,
            by rw [hAtne q hqx]; exact hjcell⟩
      · intro j hj hjkey
        rcases Nat.lt_succ_iff_lt_or_eq.mp hj with hjlt | rfl
        · obtain ⟨l₁P, qP, l₂P, hdecP, hqP, hpreP⟩ :=
            inv.placed j hjlt hjkey
          have hqPx : qP ≠ x :=
            hne_of_closed qP (hclosed_of_moved qP j hjkey hqP)
          refine ⟨l₁P, qP, l₂P, hdecP, ?_, ?_⟩
          · rw [hAtne qP hqPx]
            exact hqP
          · intro r hr
            obtain ⟨j2, hj2cap, hj2ne, hj2key, hj2cell⟩ := hpreP r hr
            have hrx : r ≠ x :=
              hne_of_closed r (hclosed_of_moved r j2 hj2key hj2cell)
            exact ⟨j2, hj2cap, hj2ne, hj2key,
              by rw [hAtne r hrx]; exact hj2cell⟩
        · refine ⟨l₁, x, l₂, hdecomp, hAtx, ?_⟩
          intro r hr
          have hrmem : r ∈ probeList C
              (t.hash (mapAt t j).key (mapAt t j).klen % C) C := by
            rw [hdecomp]
            exact List.mem_append_left _ hr
          have hrC : r < C := probeList_lt C _ C hC0 r hrmem
          have hrkey : (mapAt u r).key ≠ none := by
            have hcl := hl₁ r hr
            rw [is_open] at hcl
            exact beq_eq_false_iff_ne.mp hcl
          obtain ⟨j2, hj2lt, hj2key, hj2cell⟩ := inv.cells r hrC hrkey
          have hrx : r ≠ x := hne_of_closed r (hl₁ r hr)
          exact ⟨j2, by omega, by omega, hj2key,
            by rw [hAtne r hrx]; exact hj2cell⟩
    · intro j hjge
      have hji : i ≠ j := by omega
      rw [show mapAt (setMap old i blank_cell) j = mapAt old j from
        mapAt_setMap_ne old i j blank_cell hji]
      exact hold j (by omega)

/-- Claim C8: rehashing any (well-formed, distinct-keyed) table to twice its
capacity returns a new table whose `max_touch` equals the old table's
`max_touch` (it is restored rather than reset), whose capacity is the
doubled one, and in which every previously-inserted, non-removed key — i.e.
every key held by an occupied cell of the old table — still maps to its same
entry under `he4_get`. -/
theorem rehash_doubles_preserves (t : HE4) (hwf : WellFormed t)
    (hcmp : CompareOk t.compare)
    (hdistd : ∀ j1, j1 < t.capacity → ∀ j2, j2 < t.capacity →
      j1 = j2 ∨ (mapAt t j1).key = none ∨ (mapAt t j2).key = none ∨
        t.compare (mapAt t j1).key (mapAt t j1).klen
          (mapAt t j2).key (mapAt t j2).klen ≠ 0) :
    ∃ T dcalls, he4_rehash (some t) (2 * t.capacity) = (some T, dcalls) ∧
      T.max_touch = t.max_touch ∧
      T.capacity = 2 * t.capacity ∧
      ∀ j, j < t.capacity → (mapAt t j).key ≠ none →
        (he4_get (some T) (mapAt t j).key (mapAt t j).klen).1
          = (mapAt t j).entry := by
  have hdist : ∀ j1, j1 < t.capacity → ∀ j2, j2 < t.capacity → j1 ≠ j2 →
      (mapAt t j1).key ≠ none → (mapAt t j2).key ≠ none →
      t.compare (mapAt t j1).key (mapAt t j1).klen
        (mapAt t j2).key (mapAt t j2).klen ≠ 0 := by
    intro j1 h1 j2 h2 hne hk1 hk2
    rcases hdistd j1 h1 j2 h2 with h | h | h | h
    · exact absurd h hne
    · exact absurd h hk1
    · exact absurd h hk2
    · exact h
  have hmin := hwf.min_cap
  have hlen := hwf.len_eq
  have hmin0 : 0 < HE4_MINIMUM_SIZE := by decide
  have hcap0 : 0 < t.capacity := by omega
  have hCgt : t.capacity < 2 * t.capacity := by omega
  obtain ⟨u, old, dc, heq, inv, _⟩ :=
    rehash_fold_inv t hcmp (2 * t.capacity) hCgt (by omega) hdist
      t.capacity (le_refl t.capacity)
  have h2ne : ¬((2 * t.capacity == 0) = true) := by
    simp
    omega
  have hle : ¬(2 * t.capacity ≤ t.capacity) := by omega
  have hminnot : ¬(2 * t.capacity < HE4_MINIMUM_SIZE) := by omega
  have hnew : he4_new (2 * t.capacity) t.hash t.compare
      = some (nbTable t (2 * t.capacity)) := by
    simp only [he4_new]
    rw [if_neg hminnot]
    rfl
  have hreh : he4_rehash (some t) (2 * t.capacity)
      = (some { u with max_touch := t.max_touch },
         dc ++ he4_delete (some old)) := by
    simp only [he4_rehash]
    rw [if_neg h2ne, if_neg hle, hnew]
    exact congrArg
      (fun st : HE4 × HE4 × List DCall =>
        (some { st.1 with max_touch := t.max_touch },
         st.2.2 ++ he4_delete (some st.2.1))) heq
  have hcapu := inv.cap_eq
  have hhashu := inv.hash_eq
  have hcmpu := inv.cmp_eq
  refine ⟨{ u with max_touch := t.max_touch },
    dc ++ he4_delete (some old), hreh, rfl, inv.cap_eq, ?_⟩
  intro j hj hkey
  obtain ⟨l₁, q, l₂, hdec, hqcell, hpre⟩ := inv.placed j hj hkey
  have hklen0 : (mapAt t j).klen ≠ 0 := by
    intro h0
    have hmem := mapAt_mem t j (by omega)
    have hnone := hwf.cells_ok (mapAt t j) hmem h0
    exact absurd hnone hkey
  have hT0 : (0:Nat) < u.capacity := by omega
  cases hk : (mapAt t j).key with
  | none => exact absurd hk hkey
  | some k =>
    have hget := he4_get_found ({ u with max_touch := t.max_touch })
      hT0 k (mapAt t j).klen hklen0 l₁ q l₂
      (by
        show probeList u.capacity
          (u.hash (some k) (mapAt t j).klen % u.capacity) u.capacity
          = l₁ ++ q :: l₂
        rw [hcapu, hhashu, ← hk]
        exact hdec)
      (by
        intro r hr
        obtain ⟨j2, hj2cap, hj2ne, hj2key, hj2cell⟩ := hpre r hr
        have hj2klen : (mapAt t j2).klen ≠ 0 := by
          intro h0
          have hmem := mapAt_mem t j2 (by omega)
          exact absurd (hwf.cells_ok (mapAt t j2) hmem h0) hj2key
        constructor
        · show ((mapAt u r).klen == 0) = false
          rw [hj2cell]
          exact beq_eq_false_iff_ne.mpr hj2klen
        · show ((mapAt u r).hash == u.hash (some k) (mapAt t j).klen &&
            u.compare (some k) (mapAt t j).klen (mapAt u r).key
              (mapAt u r).klen == 0) = false
          refine Bool.and_eq_false_iff.mpr (Or.inr ?_)
          rw [hj2cell, hcmpu, ← hk]
          exact beq_eq_false_iff_ne.mpr
            (hdist j hj j2 hj2cap (fun h => hj2ne h.symm) hkey hj2key))
      (by
        show ((mapAt u q).klen == 0) = false
        rw [hqcell]
        exact beq_eq_false_iff_ne.mpr hklen0)
      (by
        show ((mapAt u q).hash == u.hash (some k) (mapAt t j).klen &&
          u.compare (some k) (mapAt t j).klen (mapAt u q).key
            (mapAt u q).klen == 0) = true
        rw [hqcell, hhashu, hcmpu, ← hk]
        refine Bool.and_eq_true_iff.mpr ⟨?_, ?_⟩
        · exact beq_self_eq_true _
        · have h0 : (t.compare (mapAt t j).key (mapAt t j).klen
              (mapAt t j).key (mapAt t j).klen == 0) = true := by
            rw [hcmp.rfl_zero (mapAt t j).key (mapAt t j).klen]
            rfl
          exact h0)
    rw [hget]
    show (mapAt u q).entry = (mapAt t j).entry
    rw [hqcell]
    rfl

/-- Witness for C8: rehashing `tW` (keys `[5]` and `[9]`) to capacity 128
keeps `max_touch` at 3 and both keys still map to entries 7 and 11. -/
theorem rehash_doubles_preserves_witness :
    ∃ T dcalls, he4_rehash (some tW) (2 * tW.capacity) = (some T, dcalls) ∧
      T.max_touch = tW.max_touch ∧
      T.capacity = 2 * tW.capacity ∧
      ∀ j, j < tW.capacity → (mapAt tW j).key ≠ none →
        (he4_get (some T) (mapAt tW j).key (mapAt tW j).klen).1
          = (mapAt tW j).entry :=
  rehash_doubles_preserves tW
    ⟨by decide, by decide, by decide, by decide⟩ he4_compare_ok
    (by decide)

end He4
